import Mathlib

/-!
Shallow embedding of the swimming-api aggregation logic (src/app/routes.py and
src/app/utils_swim.py) and proofs checking the specification's claims.

Modelling conventions, stated once:
* Python strings are Lean `String`s; the core functions work on `List Char`.
* Python `float` values are modelled exactly by `PyFloat`: a rational number
  (`fin q`), positive/negative infinity, or nan.  Machine rounding is not
  modelled; none of the checked properties depends on it.
* `float(str)` / `int(str)` are modelled by `pyFloatOfL` / `pyIntOfL` following
  CPython's grammar for base-10 literals: optional surrounding whitespace,
  optional sign, digits with single underscores between digits, an optional
  fractional part and exponent, and the special tokens inf / infinity / nan
  (case-insensitive).  Non-ASCII digits are not modelled.
* Python `\s`, `str.strip` and SQL/Python whitespace are modelled by the ASCII
  whitespace characters.
* Fallible Python code (try/except returning a sentinel) is modelled with
  `Option`.
-/

set_option allowUnsafeReducibility true
attribute [local semireducible] Rat.add Rat.mul Rat.inv Rat.sub Rat.neg Rat.div Rat.blt Rat.ofScientific

/-- ASCII whitespace, modelling Python's `\s` class and `str.strip`. -/
def isPySpace (c : Char) : Bool :=
  c = ' ' || c = '\t' || c = '\n' || c = '\r' || c = '\x0b' || c = '\x0c'

/-- `str.strip()`: drop leading and trailing whitespace. -/
def stripL (l : List Char) : List Char :=
  ((l.dropWhile isPySpace).reverse.dropWhile isPySpace).reverse

/-- Drop trailing whitespace only. -/
def dropTrailSpaces (l : List Char) : List Char :=
  (l.reverse.dropWhile isPySpace).reverse

/-- ASCII lowercasing of a character list (`str.lower`, Postgres ILIKE folding). -/
def lowerL (l : List Char) : List Char := l.map Char.toLower

/-- Substring containment: `needle in hay` for Python strings. -/
def containsL (needle : List Char) : List Char → Bool
  | [] => needle.isEmpty
  | c :: rest => needle.isPrefixOf (c :: rest) || containsL needle rest

/-- `str.replace`, fuel-indexed so that it reduces in the kernel: replace all
non-overlapping occurrences of the nonempty needle, scanning left to right.
Each step consumes at least one character, so fuel = input length suffices. -/
def replaceAllF (needle repl : List Char) : ℕ → List Char → List Char
  | 0, l => l
  | _, [] => []
  | fuel + 1, c :: rest =>
    if needle.isPrefixOf (c :: rest) then
      repl ++ replaceAllF needle repl fuel ((c :: rest).drop needle.length)
    else
      c :: replaceAllF needle repl fuel rest

/-- `str.replace` (the needles used by the code are all nonempty; an empty
needle is treated as the identity). -/
def pyReplace (needle repl hay : List Char) : List Char :=
  match needle with
  | [] => hay
  | _ :: _ => replaceAllF needle repl hay.length hay

/-- Split on every occurrence of `sep`, like Python `s.split(sep)`. -/
def splitAllAux (sep : Char) : List Char → List (List Char)
  | [] => [[]]
  | c :: rest =>
    if c = sep then [] :: splitAllAux sep rest
    else
      match splitAllAux sep rest with
      | h :: tl => (c :: h) :: tl
      | [] => [[c]]

/-- Split at the first occurrence of `sep`, like Python `s.split(sep, 1)`
(the callers guard on `sep` being present). -/
def splitFirst (sep : Char) : List Char → List Char × List Char
  | [] => ([], [])
  | c :: rest =>
    if c = sep then ([], rest)
    else
      let p := splitFirst sep rest
      (c :: p.1, p.2)

/-- Strict lexicographic order on character lists (SQL `ORDER BY` on text,
modelled bytewise on code points). -/
def strLtL : List Char → List Char → Bool
  | [], [] => false
  | [], _ :: _ => true
  | _ :: _, [] => false
  | a :: as, b :: bs => if a < b then true else if b < a then false else strLtL as bs

/-- Keep the first occurrence of each element (SQL DISTINCT / dict insertion
order). -/
def dedupL [DecidableEq α] (l : List α) : List α :=
  l.foldl (fun acc x => if x ∈ acc then acc else acc ++ [x]) []

/-- Insert `x` after every element `y` with `¬ lt x y` (stable insertion). -/
def insBy (lt : α → α → Bool) (x : α) : List α → List α
  | [] => [x]
  | y :: ys => if lt x y then x :: y :: ys else y :: insBy lt x ys

/-- Stable insertion sort; agrees with Python's stable `list.sort` whenever
`lt` is a strict total order on the keys involved. -/
def insSortBy (lt : α → α → Bool) (l : List α) : List α :=
  l.foldl (fun acc x => insBy lt x acc) []

/-- Python float values: an exact rational, an infinity, or nan. -/
inductive PyFloat where
  | fin (q : ℚ)
  | inf
  | ninf
  | nan
deriving DecidableEq, Repr

/-- Python `<` on floats: every comparison with nan is false. -/
def pyLt : PyFloat → PyFloat → Bool
  | .fin a, .fin b => decide (a < b)
  | .fin _, .inf => true
  | .ninf, .fin _ => true
  | .ninf, .inf => true
  | _, _ => false

/-- Python `<=` on floats: every comparison with nan is false. -/
def pyLe : PyFloat → PyFloat → Bool
  | .fin a, .fin b => decide (a ≤ b)
  | .fin _, .inf => true
  | .ninf, .nan => false
  | .ninf, _ => true
  | .inf, .inf => true
  | _, _ => false

/-- Python float addition. -/
def pyAdd : PyFloat → PyFloat → PyFloat
  | .fin a, .fin b => .fin (a + b)
  | .fin _, .inf => .inf
  | .fin _, .ninf => .ninf
  | .inf, .fin _ => .inf
  | .ninf, .fin _ => .ninf
  | .inf, .inf => .inf
  | .ninf, .ninf => .ninf
  | .inf, .ninf => .nan
  | .ninf, .inf => .nan
  | .nan, _ => .nan
  | _, .nan => .nan

/-- Python float multiplication. -/
def pyMul : PyFloat → PyFloat → PyFloat
  | .fin a, .fin b => .fin (a * b)
  | .inf, .fin b => if 0 < b then .inf else if b < 0 then .ninf else .nan
  | .ninf, .fin b => if 0 < b then .ninf else if b < 0 then .inf else .nan
  | .fin a, .inf => if 0 < a then .inf else if a < 0 then .ninf else .nan
  | .fin a, .ninf => if 0 < a then .ninf else if a < 0 then .inf else .nan
  | .inf, .inf => .inf
  | .ninf, .ninf => .inf
  | .inf, .ninf => .ninf
  | .ninf, .inf => .ninf
  | _, _ => .nan

/-- A maximal run of decimal digits with single underscores allowed between
digits, as in CPython numeric literals accepted by `int()`/`float()`.
Returns the digits (underscores removed) and the unconsumed rest. -/
def digRun : List Char → List Char × List Char
  | [] => ([], [])
  | c :: '_' :: d :: rest2 =>
    if c.isDigit then
      if d.isDigit then
        let p := digRun (d :: rest2)
        (c :: p.1, p.2)
      else ([c], '_' :: d :: rest2)
    else ([], c :: '_' :: d :: rest2)
  | c :: rest =>
    if c.isDigit then
      let p := digRun rest
      (c :: p.1, p.2)
    else ([], c :: rest)

/-- Numeric value of a digit list. -/
def natVal (l : List Char) : ℕ :=
  l.foldl (fun n c => 10 * n + (c.toNat - 48)) 0

/-- Consume an optional leading sign; returns (isNegative, rest). -/
def takeSign : List Char → Bool × List Char
  | '-' :: r => (true, r)
  | '+' :: r => (false, r)
  | t => (false, t)

/-- Exponent suffix of a float literal: `[sign] digits` applied to the
mantissa as a power of ten. -/
def parseExp (mant : ℚ) (r : List Char) : Option ℚ :=
  let s := takeSign r
  let dsR := digRun s.2
  if dsR.1.isEmpty || !dsR.2.isEmpty then none
  else if s.1 then some (mant / (10 : ℚ) ^ natVal dsR.1)
  else some (mant * (10 : ℚ) ^ natVal dsR.1)

/-- The optional fractional part of a float literal: a point followed by a
digit run; anything else contributes nothing and is left unconsumed. -/
def fracPart (x : List Char) : List Char × List Char :=
  match x with
  | '.' :: r => digRun r
  | _ => ([], x)

/-- The optional exponent marker of a float literal. -/
def expTail (mant : ℚ) (x : List Char) : Option ℚ :=
  match x with
  | [] => some mant
  | 'e' :: r3 => parseExp mant r3
  | 'E' :: r3 => parseExp mant r3
  | _ => none

/-- The numeric part of the CPython float grammar after the sign:
`digits [. digits] [(e|E) [sign] digits]`, at least one mantissa digit. -/
def parseDecimal (t : List Char) : Option ℚ :=
  let ipR := digRun t
  let fpR := fracPart ipR.2
  if ipR.1.isEmpty && fpR.1.isEmpty then none
  else
    expTail ((natVal ipR.1 : ℚ) + (natVal fpR.1 : ℚ) / (10 : ℚ) ^ fpR.1.length) fpR.2

/-- The token `inf`. -/
def infTok : List Char := ['i', 'n', 'f']

/-- The token `infinity`. -/
def infinityTok : List Char := ['i', 'n', 'f', 'i', 'n', 'i', 't', 'y']

/-- The token `nan`. -/
def nanTok : List Char := ['n', 'a', 'n']

/-- CPython `float(str)` on a character list. -/
def pyFloatOfL (l : List Char) : Option PyFloat :=
  match stripL l with
  | [] => none
  | c :: rest =>
    let s := takeSign (c :: rest)
    let body := lowerL s.2
    if body = infTok || body = infinityTok then
      some (if s.1 then PyFloat.ninf else PyFloat.inf)
    else if body = nanTok then some PyFloat.nan
    else (parseDecimal s.2).map (fun q => PyFloat.fin (if s.1 then -q else q))

/-- CPython `int(str)` (base 10) on a character list. -/
def pyIntOfL (l : List Char) : Option ℤ :=
  let s := takeSign (stripL l)
  let dsR := digRun s.2
  if dsR.1.isEmpty || !dsR.2.isEmpty then none
  else if s.1 then some (-(natVal dsR.1 : ℤ)) else some (natVal dsR.1 : ℤ)

/-- `parse_seconds` from src/app/routes.py: `None` input and empty string are
invalid; with a colon the string must split into exactly two parts, parsed as
`int(m) * 60 + float(sec)`; otherwise `float(s)`; any parse failure gives
`none`. -/
def parse_seconds (s : Option String) : Option PyFloat :=
  match s with
  | none => none
  | some str =>
    if str.isEmpty then none
    else
      let t := stripL str.toList
      if t.contains ':' then
        match splitAllAux ':' t with
        | [m, sec] =>
          match pyIntOfL m, pyFloatOfL sec with
          | some mi, some f => some (pyAdd (PyFloat.fin ((mi : ℚ) * 60)) f)
          | _, _ => none
        | _ => none
      else pyFloatOfL t

/-- `convert_to_seconds` from src/app/utils_swim.py: empty input gives `0.0`;
with a colon the string is split once and parsed as
`float(mm) * 60.0 + float(ss)`; otherwise `float(s)`; failures give `0.0`. -/
def convert_to_seconds (result : String) : PyFloat :=
  if result.isEmpty then PyFloat.fin 0
  else
    let t := stripL result.toList
    if t.contains ':' then
      let p := splitFirst ':' t
      match pyFloatOfL p.1, pyFloatOfL p.2 with
      | some a, some b => pyAdd (pyMul a (PyFloat.fin 60)) b
      | _, _ => PyFloat.fin 0
    else
      match pyFloatOfL t with
      | some v => v
      | none => PyFloat.fin 0

/-- The literal substitution table `_MEET_MAP` of src/app/routes.py, in source
order. -/
def meetMap : List (List Char × List Char) :=
  [("臺中市114年市長盃水上運動競賽(游泳項目)".toList, "台中市長盃".toList),
   ("全國冬季短水道游泳錦標賽".toList, "全國冬短".toList),
   ("全國總統盃暨美津濃游泳錦標賽".toList, "全國總統盃".toList),
   ("全國總統盃暨美津濃分齡游泳錦標賽".toList, "全國總統盃".toList),
   ("冬季短水道".toList, "冬短".toList),
   ("全國運動會臺南市游泳代表隊選拔賽".toList, "台南全運會選拔".toList),
   ("全國青少年游泳錦標賽".toList, "全國青少年".toList),
   ("臺中市議長盃".toList, "台中議長盃".toList),
   ("臺中市市長盃".toList, "台中市長盃".toList),
   ("(游泳項目)".toList, "".toList),
   ("春季游泳錦標賽".toList, "春長".toList),
   ("全國E世代青少年".toList, "E世代".toList),
   ("臺南市市長盃短水道".toList, "台南市長盃".toList),
   ("臺南市中小學".toList, "台南中小學".toList),
   ("臺南市委員盃".toList, "台南委員盃".toList),
   ("臺南市全國運動會游泳選拔賽".toList, "台南全運會選拔".toList)]

/-- The substitution loop of `clean_meet_name`: each table entry is replaced
when (and only when) it currently occurs as a substring. -/
def substPass (l : List Char) : List Char :=
  meetMap.foldl (fun out p => if containsL p.1 out then pyReplace p.1 p.2 out else out) l

/-- The regex `^\d{k}\s*` with replacement by the empty string: if the first
`k` characters are digits, drop them together with the following whitespace. -/
def stripLeadDigits (k : ℕ) (l : List Char) : List Char :=
  if (l.take k).length = k && (l.take k).all Char.isDigit then
    (l.drop k).dropWhile isPySpace
  else l

/-- The five-character phrase 游泳錦標賽 targeted by the cleanup regexes. -/
def champTok : List Char := "游泳錦標賽".toList

/-- The three-character lookbehind guard 青少年. -/
def guardTok : List Char := "青少年".toList

/-- Sliding window of the at most three most recent original characters,
used to evaluate the negative lookbehind. -/
def push3 (l : List Char) (c : Char) : List Char :=
  (l ++ [c]).drop (l.length + 1 - 3)

/-- The regex `(?<!青少年)游泳錦標賽` with empty replacement: remove every
occurrence of the phrase not immediately preceded by 青少年, scanning left to
right over the original string (lookbehind reads original characters). -/
def scrubChamp (last3 : List Char) : List Char → List Char
  | c1 :: c2 :: c3 :: c4 :: c5 :: rest =>
    if [c1, c2, c3, c4, c5] = champTok && !(last3 = guardTok : Bool) then
      scrubChamp (champTok.drop 2) rest
    else c1 :: scrubChamp (push3 last3 c1) (c2 :: c3 :: c4 :: c5 :: rest)
  | l => l

/-- The regex `\s*游泳錦標賽\s*$` with empty replacement: if the string, after
dropping trailing whitespace, ends with the phrase, remove the phrase together
with the whitespace on both sides of it. -/
def scrubTrail (l : List Char) : List Char :=
  let t := dropTrailSpaces l
  if champTok.isSuffixOf t then dropTrailSpaces (t.take (t.length - 5)) else l

/-- The regex `\s{2,}` replaced by a single space, fuel-indexed so that it
reduces in the kernel (each step consumes at least one character, so
fuel = input length suffices). -/
def collapseWsF : ℕ → List Char → List Char
  | 0, l => l
  | _, [] => []
  | fuel + 1, c :: rest =>
    if isPySpace c then
      match rest with
      | [] => [c]
      | d :: _ =>
        if isPySpace d then ' ' :: collapseWsF fuel (rest.dropWhile isPySpace)
        else c :: collapseWsF fuel rest
    else c :: collapseWsF fuel rest

/-- Collapse every run of two or more whitespace characters to one space. -/
def collapseWs (l : List Char) : List Char := collapseWsF l.length l

/-- The regex-and-whitespace stage of `clean_meet_name`: the four `_MEET_REGEX`
rules in order, then whitespace collapsing and a final strip. -/
def regexPass (l : List Char) : List Char :=
  stripL (collapseWs (scrubTrail (scrubChamp [] (stripLeadDigits 3 (stripLeadDigits 4 l)))))

/-- `clean_meet_name` on a character list: strip, substitution table, regex
cleanup. -/
def cleanL (l : List Char) : List Char := regexPass (substPass (stripL l))

/-- `clean_meet_name` from src/app/routes.py. -/
def clean_meet_name (name : Option String) : String :=
  match name with
  | none => ""
  | some s => if s.isEmpty then "" else ⟨cleanL s.toList⟩

/-- `is_winter_short_course` from src/app/routes.py: 冬季短水道 as a substring,
or both 短水道 and 冬 as substrings. -/
def is_winter_short_course (meet : String) : Bool :=
  if meet.isEmpty then false
  else
    containsL "冬季短水道".toList meet.toList ||
      (containsL "短水道".toList meet.toList && containsL "冬".toList meet.toList)

/-- The stroke-family vocabulary of `stroke_family`, in source order:
蛙式 (breaststroke), 仰式 (backstroke), 自由式 (freestyle), 蝶式 (butterfly). -/
def famList : List (List Char) :=
  ["蛙式".toList, "仰式".toList, "自由式".toList, "蝶式".toList]

/-- The for-loop of `stroke_family`: return the first vocabulary entry
contained in the text, or the empty string. -/
def strokeLoop (s : List Char) : List (List Char) → List Char
  | [] => []
  | f :: fs => if containsL f s then f else strokeLoop s fs

/-- `stroke_family` from src/app/routes.py. -/
def stroke_family (s : String) : String := ⟨strokeLoop s.toList famList⟩

/-- The unit marker 公尺 (meter). -/
def meterTok : List Char := "公尺".toList

/-- The regex search `(\d+)\s*公尺`: the leftmost maximal digit run that is
followed (modulo whitespace) by 公尺. -/
def findDist : List Char → Option (List Char)
  | [] => none
  | c :: rest =>
    if c.isDigit then
      let run := (c :: rest).takeWhile Char.isDigit
      let after := ((c :: rest).dropWhile Char.isDigit).dropWhile isPySpace
      if meterTok.isPrefixOf after then some run else findDist rest
    else findDist rest

/-- `distance_from_item` from src/app/routes.py: the matched digits suffixed
with 公尺, or `none` when the pattern does not occur. -/
def distance_from_item (item : String) : Option String :=
  (findDist item.toList).map (fun run => ⟨run ++ meterTok⟩)

/-- `same_numeric_group` from src/app/routes.py: the stripped group string is
nonempty and consists of digits only. -/
def same_numeric_group (g : Option String) : Bool :=
  match g with
  | none => false
  | some s =>
    let t := stripL s.toList
    !t.isEmpty && t.all Char.isDigit

/-- A row of the `swimming_scores` table, restricted to the columns the
modelled routes read: 年份 (year), 賽事名稱 (meet), 項目 (item), 成績 (result,
nullable), 組別 (group, nullable), 姓名 (swimmer name). -/
structure Row where
  year : String
  meet : String
  item : String
  result : Option String
  grp : Option String
  name : String
deriving DecidableEq, Repr

/-- `COALESCE("組別"::text, '')`. -/
def grpC (r : Row) : String := r.grp.getD ""

/-- `"項目" ILIKE :pat` with `pat = f"%{stroke.strip()}%"`: case-insensitive
substring containment (wildcard characters inside `stroke` are not modelled). -/
def ilikeMatch (stroke hay : String) : Bool :=
  containsL (lowerL (stripL stroke.toList)) (lowerL hay.toList)

/-- The rows of one swimmer in one event pattern, ordered by the year column
ascending (`ORDER BY "年份" ASC`, modelled as a stable sort; ties keep the
table order, which SQL leaves unspecified). -/
def rowsOf (db : List Row) (player stroke : String) : List Row :=
  insSortBy (fun a b => strLtL a.year.toList b.year.toList)
    (db.filter (fun r => r.name == player && ilikeMatch stroke r.item))

/-- One iteration of the `/api/pb` reduction loop: skip winter short-course
meets and unparseable times, keep the strictly smallest parsed time together
with its year and cleaned meet name.  There is no check against
non-positive parsed times here. -/
def stepPb (best : Option (PyFloat × String × String)) (r : Row) :
    Option (PyFloat × String × String) :=
  if is_winter_short_course r.meet then best
  else
    match parse_seconds r.result with
    | none => best
    | some sec =>
      match best with
      | none => some (sec, r.year, clean_meet_name (some r.meet))
      | some b => if pyLt sec b.1 then some (sec, r.year, clean_meet_name (some r.meet)) else some b

/-- The `/api/pb` personal-best reduction from src/app/routes.py. -/
def pb (db : List Row) (player stroke : String) : Option (PyFloat × String × String) :=
  (rowsOf db player stroke).foldl stepPb none

/-- One iteration of the `best_of` reduction loop inside `rank_api`: like
`stepPb` but also skipping parsed times with `sec <= 0`. -/
def stepBest (best : Option (PyFloat × String × String)) (r : Row) :
    Option (PyFloat × String × String) :=
  if is_winter_short_course r.meet then best
  else
    match parse_seconds r.result with
    | none => best
    | some sec =>
      if pyLe sec (PyFloat.fin 0) then best
      else
        match best with
        | none => some (sec, r.year, clean_meet_name (some r.meet))
        | some b => if pyLt sec b.1 then some (sec, r.year, clean_meet_name (some r.meet)) else some b

/-- `best_of` from `rank_api` in src/app/routes.py. -/
def best_of (db : List Row) (player stroke : String) : Option (PyFloat × String × String) :=
  (rowsOf db player stroke).foldl stepBest none

/-- One distinct (year, meet, item, group) combination of the target swimmer,
as produced by the `GROUP BY` query of `rank_api`. -/
structure MeetKey where
  year : String
  meet : String
  item : String
  grp : String
deriving DecidableEq, Repr

/-- The `q_meets` query of `rank_api`: the distinct (year, meet, item,
coalesced group) combinations of the target's rows in the event pattern. -/
def targetGroups (db : List Row) (name stroke : String) : List MeetKey :=
  dedupL ((db.filter (fun r => r.name == name && ilikeMatch stroke r.item)).map
    (fun r => ⟨r.year, r.meet, r.item, grpC r⟩))

/-- The per-meet opponent condition of `rank_api`: same year, meet and item,
a different swimmer, and — only when the target's group for that meet is not
purely numeric — the same coalesced group. -/
def candFilter (tgt : String) (k : MeetKey) (r : Row) : Bool :=
  r.year == k.year && r.meet == k.meet && r.item == k.item && r.name != tgt &&
    (same_numeric_group (some k.grp) || grpC r == k.grp)

/-- The opponent pool of `rank_api`: for every target meet combination, the
distinct other swimmers appearing in that (year, meet, item) — restricted to
the same group when the target's group is not numeric — accumulated in first
insertion order. -/
def opponentsOf (db : List Row) (name stroke : String) : List String :=
  (targetGroups db name stroke).foldl
    (fun acc k =>
      (dedupL ((db.filter (candFilter name k)).map Row.name)).foldl
        (fun a nm => if nm ∈ a then a else a ++ [nm]) acc)
    []

/-- A leaderboard row of `rank_api`: swimmer name with personal-best time,
year and cleaned meet name. -/
structure BRow where
  name : String
  pbSec : PyFloat
  pbYear : String
  pbMeet : String
deriving DecidableEq, Repr

/-- `all_names` of `rank_api`: the opponents plus the target (the target is
appended when absent, which is always the case since the opponent queries
exclude them). -/
def allNamesOf (db : List Row) (name stroke : String) : List String :=
  let opps := opponentsOf db name stroke
  if name ∈ opps then opps else opps ++ [name]

/-- The unsorted leaderboard of `rank_api`: every pool member whose `best_of`
is non-null. -/
def boardOf (db : List Row) (name stroke : String) : List BRow :=
  (allNamesOf db name stroke).filterMap
    (fun nm => (best_of db nm stroke).map (fun b => ⟨nm, b.1, b.2.1, b.2.2⟩))

/-- `enumerate(board, start=1)`: attach 1-based ranks. -/
def withRanks (n : ℕ) : List BRow → List (ℕ × BRow)
  | [] => []
  | b :: bs => (n, b) :: withRanks (n + 1) bs

/-- The output of `rank_api` (the fields the checked claims are about; the
`around` window and `leaderTrend` series are not modelled). -/
structure RankOut where
  denominator : ℕ
  rank : Option ℕ
  percentile : Option ℚ
  leader : Option (String × PyFloat)
  top : List (ℕ × BRow)
deriving DecidableEq, Repr

/-- The `/api/rank` route from src/app/routes.py: build the opponent pool,
compute every member's personal best, sort ascending by personal best, rank
the target, and report denominator, rank, percentile
`100 * (denominator - rank) / denominator`, the leader and the top-10 list.
Empty pools and empty boards return early with denominator 0 and null
rank/percentile. -/
def rank_api (db : List Row) (name stroke : String) : RankOut :=
  let opps := opponentsOf db name stroke
  if opps.isEmpty then ⟨0, none, none, none, []⟩
  else
    let board := boardOf db name stroke
    if board.isEmpty then ⟨0, none, none, none, []⟩
    else
      let sorted := insSortBy (fun a b => pyLt a.pbSec b.pbSec) board
      let ranked := withRanks 1 sorted
      let den := ranked.length
      let you := ranked.find? (fun p => p.2.name == name)
      let rankNo : Option ℕ := you.map (fun p => p.1)
      let pct : Option ℚ :=
        match rankNo with
        | none => none
        | some k => if k = 0 then none else some (100 * ((den : ℚ) - (k : ℚ)) / (den : ℚ))
      ⟨den, rankNo, pct, sorted.head?.map (fun b => (b.name, b.pbSec)), ranked.take 10⟩

/-- The sorted leaderboard of `rank_api`. -/
def sortedOf (db : List Row) (name stroke : String) : List BRow :=
  insSortBy (fun a b => pyLt a.pbSec b.pbSec) (boardOf db name stroke)

/-- The sorted leaderboard with 1-based ranks attached. -/
def rankedOf (db : List Row) (name stroke : String) : List (ℕ × BRow) :=
  withRanks 1 (sortedOf db name stroke)

/-- Whether a character list contains an ASCII digit. -/
def hasDigitL (l : List Char) : Bool := l.any Char.isDigit

/-- Whether a string is one of the special float tokens inf / infinity / nan
(after stripping, an optional sign, case-insensitive). -/
def isSpecialFloat (l : List Char) : Bool :=
  let t1 := (takeSign (stripL l)).2
  lowerL t1 == infTok || lowerL t1 == infinityTok || lowerL t1 == nanTok

/-- Bool test that a parse result is absent or a finite value (no inf/nan). -/
def finOrNoneB : Option PyFloat → Bool
  | none => true
  | some (.fin _) => true
  | some _ => false

/-- Specification-side eligibility of a record for the personal best: not a
winter short-course meet, and the parsed time is a positive finite number.
Returns that time. -/
def eligRow (r : Row) : Option ℚ :=
  if is_winter_short_course r.meet then none
  else
    match parse_seconds r.result with
    | some (.fin q) => if 0 < q then some q else none
    | _ => none

/-- The eligible parsed times of a swimmer's rows in an event, in query
order. -/
def eligTimes (db : List Row) (player stroke : String) : List ℚ :=
  (rowsOf db player stroke).filterMap eligRow

/-- Invariant of the `best_of` fold: the accumulator is empty exactly when no
eligible time has been seen, and otherwise holds the minimum eligible time
seen so far. -/
def accOk (acc : Option (PyFloat × String × String)) (E : List ℚ) : Prop :=
  (acc = none ↔ E = []) ∧
    ∀ v y m, acc = some (v, y, m) →
      ∃ q, v = PyFloat.fin q ∧ 0 < q ∧ q ∈ E ∧ ∀ q' ∈ E, q ≤ q'

/-- The pool members (opponents plus target) that have a non-null personal
best; `rank_api`'s denominator counts exactly these. -/
def validPool (db : List Row) (name stroke : String) : List String :=
  (allNamesOf db name stroke).filter (fun nm => (best_of db nm stroke).isSome)

/-- Specification-side pool membership, following the claim: the candidate is
not the target and has a record sharing (date, meet, event) with a record of
the target in the event; when the target's group on that record is not purely
numeric, the candidate's group must equal it. -/
def PoolSpec (db : List Row) (name stroke cand : String) : Prop :=
  cand ≠ name ∧
    ∃ r ∈ db, r.name = name ∧ ilikeMatch stroke r.item = true ∧
      ∃ c ∈ db, c.name = cand ∧ c.year = r.year ∧ c.meet = r.meet ∧ c.item = r.item ∧
        (same_numeric_group (some (grpC r)) = true ∨ grpC c = grpC r)

/-- Specification-side reading of the distance regex `(\d+)\s*公尺`: the text
decomposes around a nonempty digit run followed, after whitespace, by 公尺. -/
def distMatch (l : List Char) : Prop :=
  ∃ pre ds sp post, l = pre ++ ds ++ sp ++ meterTok ++ post ∧ ds ≠ [] ∧
    (∀ c ∈ ds, c.isDigit = true) ∧ (∀ c ∈ sp, isPySpace c = true)


def dbEx : List Row :=
  [⟨"2023", "公開賽", "50公尺蛙式", some "31.50", some "1", "A"⟩,
   ⟨"2023", "公開賽", "50公尺蛙式", some "30.00", some "1", "B"⟩,
   ⟨"2023", "公開賽", "50公尺蛙式", some "33.00", some "1", "C"⟩]


def dbNan : List Row :=
  [⟨"2023", "公開賽", "50公尺蛙式", some "nan", none, "X"⟩,
   ⟨"2024", "公開賽", "50公尺蛙式", some "31.50", none, "X"⟩]


def dbZero : List Row :=
  [⟨"20230601", "Y Open", "50公尺蛙式", some "0", none, "A"⟩]

/-- A two-member pool in which the target's only result string is "nan". -/
def dbNanRank : List Row :=
  [⟨"2023", "公開賽", "50公尺蛙式", some "nan", some "1", "A"⟩,
   ⟨"2023", "公開賽", "50公尺蛙式", some "30.00", some "1", "B"⟩]


def dbNoTime : List Row :=
  [⟨"2023", "公開賽", "50公尺蛙式", some "abc", some "1", "A"⟩,
   ⟨"2023", "公開賽", "50公尺蛙式", some "30.00", some "1", "B"⟩]


def dbWinter : List Row :=
  [⟨"20230101", "X冬季短水道錦標賽", "50公尺蛙式", some "32.10", none, "A"⟩,
   ⟨"20230601", "Y Open", "50公尺蛙式", some "31.50", none, "A"⟩,
   ⟨"20220101", "Y Open", "50公尺蛙式", some "33.00", none, "A"⟩]


theorem dropWhile_head_not (p : Char → Bool) (l : List Char) :
    ∀ c, (l.dropWhile p).head? = some c → p c = false := by
  induction l with
  | nil => intro c h; simp at h
  | cons x xs ih =>
    intro c h
    by_cases hx : p x
    · rw [List.dropWhile_cons, if_pos hx] at h
      exact ih c h
    · rw [List.dropWhile_cons, if_neg hx] at h
      simp at h
      exact h ▸ Bool.eq_false_iff.mpr hx

theorem dropWhile_eq_self_of_head (p : Char → Bool) (m : List Char)
    (h : ∀ c, m.head? = some c → p c = false) : m.dropWhile p = m := by
  cases m with
  | nil => simp
  | cons x xs =>
    have hx := h x (by simp)
    simp [List.dropWhile_cons, hx]

theorem getLast?_dropWhile (p : Char → Bool) (z : List Char)
    (h : z.dropWhile p ≠ []) : (z.dropWhile p).getLast? = z.getLast? := by
  induction z with
  | nil => simp at h
  | cons x xs ih =>
    by_cases hx : p x
    · rw [List.dropWhile_cons, if_pos hx] at h ⊢
      cases xs with
      | nil => simp at h
      | cons b t => rw [ih h, List.getLast?_cons_cons]
    · rw [List.dropWhile_cons, if_neg hx]

theorem stripL_idem (l : List Char) : stripL (stripL l) = stripL l := by
  unfold stripL
  have hdropy : ((l.dropWhile isPySpace).reverse.dropWhile isPySpace).dropWhile isPySpace =
      (l.dropWhile isPySpace).reverse.dropWhile isPySpace :=
    dropWhile_eq_self_of_head _ _ (fun c hc => dropWhile_head_not _ _ c hc)
  have hdropry :
      ((l.dropWhile isPySpace).reverse.dropWhile isPySpace).reverse.dropWhile isPySpace =
        ((l.dropWhile isPySpace).reverse.dropWhile isPySpace).reverse := by
    apply dropWhile_eq_self_of_head
    intro c hc
    rw [List.head?_reverse] at hc
    by_cases hynil : (l.dropWhile isPySpace).reverse.dropWhile isPySpace = []
    · rw [hynil] at hc
      simp at hc
    · rw [getLast?_dropWhile _ _ hynil, List.getLast?_reverse] at hc
      exact dropWhile_head_not _ _ c hc
  rw [hdropry, List.reverse_reverse, hdropy]

theorem substPass_eq_self (l : List Char)
    (h : meetMap.all (fun p => !containsL p.1 l) = true) : substPass l = l := by
  unfold substPass
  rw [List.all_eq_true] at h
  have key : ∀ ms : List (List Char × List Char),
      (∀ p ∈ ms, containsL p.1 l = false) →
      ms.foldl (fun out p => if containsL p.1 out then pyReplace p.1 p.2 out else out) l = l := by
    intro ms
    induction ms with
    | nil => intro _; rfl
    | cons q qs ih =>
      intro hms
      have hq : containsL q.1 l = false := hms q (by simp)
      rw [List.foldl_cons,
        show (if containsL q.1 l then pyReplace q.1 q.2 l else l) = l from by simp [hq]]
      exact ih (fun p hp => hms p (List.mem_cons_of_mem _ hp))
  exact key meetMap (fun p hp => by simpa using h p hp)

/-- C1 (counterexample): on the spec's own scenario pool
{A: 31.50, B: 30.00, C: 33.00} the Ranking Builder ranks A second of three but
reports percentile `100 * (3 - 2) / 3` = 33.3…, not
`100 * (3 - 2 + 1) / 3` = 66.7 as the claim states. -/
theorem rank_api_percentile_counterexample :
    (rank_api dbEx "A" "50公尺蛙式").rank = some 2 ∧
      (rank_api dbEx "A" "50公尺蛙式").denominator = 3 ∧
      (rank_api dbEx "A" "50公尺蛙式").percentile = some (100 / 3) ∧
      ¬ ((100 : ℚ) / 3 = 100 * (3 - 2 + 1) / 3) := by decide

/-- C2 (code bug, evaluated): the `/api/pb` reducer misses the `sec <= 0`
check present in `best_of` and in the summary reduction, so a record whose
result string parses to 0 is returned as the personal best, contradicting the
claim that the reducer never returns a parsed time `<= 0`. -/
theorem pb_returns_nonpositive_time :
    pb dbZero "A" "50公尺蛙式" = some (PyFloat.fin 0, "20230601", "Y Open") ∧
      pyLe (PyFloat.fin 0) (PyFloat.fin 0) = true := by decide

/-- C3 (counterexample): a record whose result string is "nan" passes both
validity checks of `best_of` (`nan is None` and `nan <= 0` are false) and then
defeats every later comparison, so the reducer returns nan instead of the
minimum valid time 31.50 of the remaining eligible records. -/
theorem best_of_nan_counterexample :
    best_of dbNan "X" "50公尺蛙式" = some (PyFloat.nan, "2023", "公開賽") ∧
      eligTimes dbNan "X" "50公尺蛙式" = [63 / 2] ∧
      PyFloat.nan ≠ PyFloat.fin (63 / 2) := by decide

/-- C4 (counterexample): `parse_seconds` unpacks `s.split(":")` into exactly
two names, so the valid "HH:MM:SS.ss" string "1:02:03.5" raises and yields the
invalid result instead of the claimed 1*3600 + 2*60 + 3.5 = 3723.5 seconds;
`convert_to_seconds` likewise fails to 0.0 on it. -/
theorem parse_seconds_two_colons_counterexample :
    parse_seconds (some "1:02:03.5") = none ∧
      convert_to_seconds "1:02:03.5" = PyFloat.fin 0 ∧
      (none : Option PyFloat) ≠ some (PyFloat.fin (7447 / 2)) := by decide

/-- C7 (counterexample): the Meet-Name Normalizer is not idempotent.
Removing the substring "(游泳項目)" from "臺中市(游泳項目)市長盃" creates the
substitution key "臺中市市長盃", which is only replaced (by "台中市長盃") on a
second pass. -/
theorem clean_meet_name_not_idempotent :
    clean_meet_name (some (clean_meet_name (some "臺中市(游泳項目)市長盃"))) ≠
      clean_meet_name (some "臺中市(游泳項目)市長盃") := by decide

/-- C8 (counterexample): the stroke vocabulary of `stroke_family` has four
entries — 蛙式, 仰式, 自由式, 蝶式 — and no medley entry, so the medley label
"200公尺混合式" is classified as the unknown value "" even though it contains
混合式 (medley); the claimed five-element vocabulary would classify it as
medley. -/
theorem stroke_family_medley_counterexample :
    stroke_family "200公尺混合式" = "" ∧
      containsL "混合式".toList "200公尺混合式".toList = true ∧
      distance_from_item "200公尺混合式" = some "200公尺" := by decide

/-- C9 (counterexample): "inf" contains no digit characters, yet
`parse_seconds` returns a numeric (infinite) value for it because Python's
`float` accepts the special tokens inf/infinity/nan. -/
theorem parse_seconds_inf_counterexample :
    parse_seconds (some "inf") = some PyFloat.inf ∧
      hasDigitL "inf".toList = false := by decide

theorem cleanL_idem (l : List Char)
    (h1 : meetMap.all (fun p => !containsL p.1 (cleanL l)) = true)
    (h2 : regexPass (cleanL l) = cleanL l) : cleanL (cleanL l) = cleanL l := by
  have h0 : cleanL l = stripL (collapseWs (scrubTrail (scrubChamp []
      (stripLeadDigits 3 (stripLeadDigits 4 (substPass (stripL l))))))) := rfl
  have hstrip : stripL (cleanL l) = cleanL l := by
    rw [h0, stripL_idem]
  have h3 : cleanL (cleanL l) = regexPass (substPass (stripL (cleanL l))) := rfl
  rw [h3, hstrip, substPass_eq_self _ h1, h2]

/-- C7 (amended): the normalizer is idempotent on every input whose
once-normalized form contains none of the substitution keys and is a fixed
point of the regex-and-whitespace stage; in general a second pass can change
the string, because a replacement may create a new substitution key. -/
theorem clean_meet_name_idempotent_on_stable (s : String)
    (h1 : meetMap.all (fun p => !containsL p.1 (cleanL s.toList)) = true)
    (h2 : regexPass (cleanL s.toList) = cleanL s.toList) :
    clean_meet_name (some (clean_meet_name (some s))) = clean_meet_name (some s) := by
  by_cases hs : s.isEmpty
  · rw [(String.isEmpty_iff _).mp hs]
    rfl
  · have hts : clean_meet_name (some s) = ⟨cleanL s.toList⟩ := by
      have hd : clean_meet_name (some s) = if s.isEmpty then "" else ⟨cleanL s.toList⟩ := rfl
      rw [hd, if_neg hs]
    rw [hts]
    by_cases ht : (⟨cleanL s.toList⟩ : String).isEmpty
    · rw [(String.isEmpty_iff _).mp ht]
      rfl
    · have hmk : ∀ l : List Char, clean_meet_name (some (⟨l⟩ : String)) =
          if (⟨l⟩ : String).isEmpty then "" else ⟨cleanL l⟩ := fun _ => rfl
      rw [hmk, if_neg ht]
      exact congrArg String.mk (cleanL_idem s.toList h1 h2)

theorem digRun_fst_nil : ∀ x : List Char, (digRun x).1 = [] → (digRun x).2 = x := by
  intro x
  unfold digRun
  split
  · intro _; rfl
  · rename_i c2 d rest2
    split
    · split
      · intro h; simp at h
      · intro h; simp at h
    · intro _; rfl
  · rename_i y hne c2 rest2
    split
    · intro h; simp at h
    · intro _; rfl

theorem digRun_fst_cons_digit :
    ∀ (c : Char) (rest : List Char), c.isDigit = false → (digRun (c :: rest)).1 = [] := by
  intro c rest hc
  unfold digRun
  split
  · rename_i heq
    simp at heq
  · rename_i c2 d rest2 heq
    rw [List.cons.injEq] at heq
    obtain ⟨h1, h2⟩ := heq
    subst h1
    simp [hc]
  · rename_i y hne c2 rest2 heq
    rw [List.cons.injEq] at heq
    obtain ⟨h1, h2⟩ := heq
    subst h1
    simp [hc]

theorem digRun_head (x : List Char) (h : (digRun x).1 ≠ []) :
    ∃ c rest, x = c :: rest ∧ c.isDigit = true := by
  cases x with
  | nil => simp [digRun] at h
  | cons c rest =>
    refine ⟨c, rest, rfl, ?_⟩
    by_contra hc
    exact h (digRun_fst_cons_digit c rest (Bool.eq_false_iff.mpr hc))

theorem mem_dropWhile_sub (p : Char → Bool) (l : List Char) :
    ∀ c, c ∈ l.dropWhile p → c ∈ l :=
  fun _ hc => List.Sublist.mem hc (List.dropWhile_sublist p)

theorem mem_stripL (l : List Char) : ∀ c, c ∈ stripL l → c ∈ l := by
  intro c hc
  unfold stripL at hc
  rw [List.mem_reverse] at hc
  have h2 := mem_dropWhile_sub _ _ c hc
  rw [List.mem_reverse] at h2
  exact mem_dropWhile_sub _ _ c h2

theorem mem_takeSign (x : List Char) : ∀ c, c ∈ (takeSign x).2 → c ∈ x := by
  intro c
  unfold takeSign
  split
  · exact fun h => List.mem_cons_of_mem _ h
  · exact fun h => List.mem_cons_of_mem _ h
  · exact id

theorem splitAllAux_ne_nil (sep : Char) : ∀ t : List Char, splitAllAux sep t ≠ [] := by
  intro t
  cases t with
  | nil => simp [splitAllAux]
  | cons c rest =>
    unfold splitAllAux
    split
    · simp
    · split
      · simp
      · simp

theorem splitAllAux_single (sep : Char) :
    ∀ t x, splitAllAux sep t = [x] → t = x ∧ sep ∉ x := by
  intro t
  induction t with
  | nil =>
    intro x h
    simp [splitAllAux] at h
    subst h
    simp
  | cons c rest ih =>
    intro x h
    unfold splitAllAux at h
    by_cases hc : c = sep
    · rw [if_pos hc] at h
      simp at h
      exact absurd h.2 (splitAllAux_ne_nil sep rest)
    · rw [if_neg hc] at h
      rcases hsp : splitAllAux sep rest with _ | ⟨hh, tl⟩
      · exact absurd hsp (splitAllAux_ne_nil sep rest)
      · rw [hsp] at h
        simp at h
        obtain ⟨hx, htl⟩ := h
        obtain ⟨hr, hnm⟩ := ih hh (by rw [hsp, htl])
        subst hr
        constructor
        · rw [← hx]
        · rw [← hx]
          simp [hc, hnm]
          exact fun he => absurd he.symm hc

theorem splitAllAux_pair (sep : Char) :
    ∀ t a b, splitAllAux sep t = [a, b] → t = a ++ sep :: b ∧ sep ∉ a ∧ sep ∉ b := by
  intro t
  induction t with
  | nil =>
    intro a b h
    simp [splitAllAux] at h
  | cons c rest ih =>
    intro a b h
    unfold splitAllAux at h
    by_cases hc : c = sep
    · rw [if_pos hc] at h
      simp at h
      obtain ⟨ha, hrest⟩ := h
      obtain ⟨hr, hnb⟩ := splitAllAux_single sep rest b hrest
      subst hr hc ha
      simp [hnb]
    · rw [if_neg hc] at h
      rcases hsp : splitAllAux sep rest with _ | ⟨hh, tl⟩
      · exact absurd hsp (splitAllAux_ne_nil sep rest)
      · rw [hsp] at h
        simp at h
        obtain ⟨ha, htl⟩ := h
        obtain ⟨hr, hna, hnb⟩ := ih hh b (by rw [hsp, htl])
        subst hr
        refine ⟨by rw [← ha, List.cons_append], ?_, hnb⟩
        rw [← ha]
        simp [hna]
        exact fun he => absurd he.symm hc

theorem hasDigit_of_mem {l : List Char} {c : Char} (hc : c ∈ l) (hd : c.isDigit = true) :
    hasDigitL l = true := by
  unfold hasDigitL
  rw [List.any_eq_true]
  exact ⟨c, hc, hd⟩

theorem stripL_sub (l : List Char) : ∀ c, c ∈ stripL l → c ∈ l := mem_stripL l

theorem pyIntOfL_digitless (m : List Char) (h : hasDigitL m = false) : pyIntOfL m = none := by
  unfold pyIntOfL
  rcases hds : (digRun (takeSign (stripL m)).2).1 with _ | ⟨d, ds⟩
  · simp [hds]
  · obtain ⟨c, rest, hshape, hdig⟩ := digRun_head _ (by rw [hds]; simp)
    have hmem : c ∈ m :=
      mem_stripL m c (mem_takeSign _ c (by rw [hshape]; simp))
    rw [hasDigit_of_mem hmem hdig] at h
    simp at h

theorem hasDigit_false_of_sub {l m : List Char} (hsub : ∀ c, c ∈ m → c ∈ l)
    (h : hasDigitL l = false) : hasDigitL m = false := by
  by_contra hc
  rw [Bool.not_eq_false] at hc
  unfold hasDigitL at hc
  rw [List.any_eq_true] at hc
  obtain ⟨c, hcm, hcd⟩ := hc
  rw [hasDigit_of_mem (hsub c hcm) hcd] at h
  simp at h

theorem digRun_fst_nil_of_digitless (t : List Char) (h : hasDigitL t = false) :
    (digRun t).1 = [] := by
  rcases hds : (digRun t).1 with _ | ⟨d0, ds⟩
  · rfl
  · obtain ⟨c, rest, hsh, hdig⟩ := digRun_head t (by rw [hds]; simp)
    rw [hasDigit_of_mem (by rw [hsh]; simp) hdig] at h
    simp at h

theorem fracPart_fst_digitless (x : List Char) (h : hasDigitL x = false) :
    (fracPart x).1 = [] := by
  unfold fracPart
  split
  · rename_i r
    apply digRun_fst_nil_of_digitless
    apply hasDigit_false_of_sub _ h
    intro c hc
    exact List.mem_cons_of_mem _ hc
  · rfl

theorem parseDecimal_digitless (t : List Char) (h : hasDigitL t = false) :
    parseDecimal t = none := by
  have hip : (digRun t).1 = [] := digRun_fst_nil_of_digitless t h
  have hsnd : (digRun t).2 = t := digRun_fst_nil t hip
  have hfp : (fracPart t).1 = [] := fracPart_fst_digitless t h
  unfold parseDecimal
  simp only [hip, hsnd, hfp, List.isEmpty_nil, Bool.and_self, if_true]

/-- Unfolding of `pyFloatOfL` when the stripped input is nonempty. -/
theorem pyFloatOfL_cons (l : List Char) (c : Char) (rest : List Char)
    (hst : stripL l = c :: rest) :
    pyFloatOfL l =
      (if lowerL (takeSign (c :: rest)).2 = infTok ||
            lowerL (takeSign (c :: rest)).2 = infinityTok then
          some (if (takeSign (c :: rest)).1 then PyFloat.ninf else PyFloat.inf)
        else if lowerL (takeSign (c :: rest)).2 = nanTok then some PyFloat.nan
        else (parseDecimal (takeSign (c :: rest)).2).map
          (fun q => PyFloat.fin (if (takeSign (c :: rest)).1 then -q else q))) := by
  unfold pyFloatOfL
  rw [hst]

theorem pyFloatOfL_invalid (l : List Char) (hd : hasDigitL l = false)
    (hsp : isSpecialFloat l = false) : pyFloatOfL l = none := by
  rcases hst : stripL l with _ | ⟨c, rest⟩
  · unfold pyFloatOfL
    rw [hst]
  · rw [pyFloatOfL_cons l c rest hst]
    unfold isSpecialFloat at hsp
    rw [hst] at hsp
    simp only [Bool.or_eq_false_iff, beq_eq_false_iff_ne, ne_eq] at hsp
    obtain ⟨⟨h1, h2⟩, h3⟩ := hsp
    have hdt : hasDigitL (takeSign (c :: rest)).2 = false := by
      apply hasDigit_false_of_sub (l := l) _ hd
      intro x hx
      exact mem_stripL l x (by rw [hst]; exact mem_takeSign _ x hx)
    simp [h1, h2, h3, parseDecimal_digitless _ hdt]

/-- Unfolding of `parse_seconds` on a nonempty string. -/
theorem parse_seconds_some (s : String) (he : s.isEmpty = false) :
    parse_seconds (some s) =
      (if (stripL s.toList).contains ':' then
        match splitAllAux ':' (stripL s.toList) with
        | [m, sec] =>
          match pyIntOfL m, pyFloatOfL sec with
          | some mi, some f => some (pyAdd (PyFloat.fin ((mi : ℚ) * 60)) f)
          | _, _ => none
        | _ => none
      else pyFloatOfL (stripL s.toList)) := by
  have hd : parse_seconds (some s) =
      if s.isEmpty then none
      else
        (if (stripL s.toList).contains ':' then
          match splitAllAux ':' (stripL s.toList) with
          | [m, sec] =>
            match pyIntOfL m, pyFloatOfL sec with
            | some mi, some f => some (pyAdd (PyFloat.fin ((mi : ℚ) * 60)) f)
            | _, _ => none
          | _ => none
        else pyFloatOfL (stripL s.toList)) := rfl
  rw [hd, he]
  rfl

/-- C9 (amended): the empty string, a null input, and every digitless string
other than the special float tokens (inf / infinity / nan, optionally signed,
case-insensitive, surrounded by whitespace) make the Time Parser return the
invalid result; parse exceptions are modelled by the `none` result itself. -/
theorem parse_seconds_invalid_inputs :
    parse_seconds none = none ∧ parse_seconds (some "") = none ∧
      ∀ s : String, hasDigitL s.toList = false → isSpecialFloat s.toList = false →
        parse_seconds (some s) = none := by
  refine ⟨rfl, rfl, ?_⟩
  intro s hd hsp
  by_cases he : s.isEmpty
  · rw [show parse_seconds (some s) =
      (if s.isEmpty then none
       else
        (if (stripL s.toList).contains ':' then
          match splitAllAux ':' (stripL s.toList) with
          | [m, sec] =>
            match pyIntOfL m, pyFloatOfL sec with
            | some mi, some f => some (pyAdd (PyFloat.fin ((mi : ℚ) * 60)) f)
            | _, _ => none
          | _ => none
        else pyFloatOfL (stripL s.toList))) from rfl, if_pos he]
  · rw [parse_seconds_some s (Bool.eq_false_iff.mpr he)]
    have hdt : hasDigitL (stripL s.toList) = false :=
      hasDigit_false_of_sub (mem_stripL s.toList) hd
    have hspt : isSpecialFloat (stripL s.toList) = false := by
      unfold isSpecialFloat at hsp ⊢
      rw [stripL_idem]
      exact hsp
    by_cases hcol : (stripL s.toList).contains ':' = true
    · rw [if_pos hcol]
      rcases hsp2 : splitAllAux ':' (stripL s.toList) with _ | ⟨a, _ | ⟨b, _ | ⟨c3, r3⟩⟩⟩
      · exact absurd hsp2 (splitAllAux_ne_nil ':' _)
      · rfl
      · obtain ⟨hdec, hna, hnb⟩ := splitAllAux_pair ':' _ a b hsp2
        have hda : hasDigitL a = false := by
          apply hasDigit_false_of_sub (l := stripL s.toList) _ hdt
          intro x hx
          rw [hdec]
          exact List.mem_append_left _ hx
        show (match pyIntOfL a, pyFloatOfL b with
          | some mi, some f => some (pyAdd (PyFloat.fin ((mi : ℚ) * 60)) f)
          | _, _ => none) = none
        rw [pyIntOfL_digitless a hda]
      · rfl
    · rw [if_neg hcol]
      exact pyFloatOfL_invalid _ hdt hspt

theorem digRun_cons_eq (c : Char) (rest : List Char)
    (hne : ∀ (d : Char) (rest2 : List Char), rest ≠ '_' :: d :: rest2) :
    digRun (c :: rest) =
      if c.isDigit then (c :: (digRun rest).1, (digRun rest).2) else ([], c :: rest) := by
  conv_lhs => rw [digRun.eq_def]
  split
  · rename_i heq
    simp at heq
  · rename_i c2 d rest2 heq
    rw [List.cons.injEq] at heq
    exact absurd heq.2 (hne d rest2)
  · rename_i y hne2 c2 rest2 heq
    rw [List.cons.injEq] at heq
    obtain ⟨h1, h2⟩ := heq
    subst h1 h2
    rfl

theorem digRun_decomp : ∀ t : List Char, ∃ u, t = u ++ (digRun t).2 ∧
    ∀ c ∈ u, c.isDigit = true ∨ c = '_' := by
  intro t
  induction t using digRun.induct with
  | case1 => exact ⟨[], rfl, by simp⟩
  | case2 c d rest2 hc hd ih =>
    obtain ⟨u, hu, hall⟩ := ih
    refine ⟨c :: '_' :: u, ?_, ?_⟩
    · have hsnd : (digRun (c :: '_' :: d :: rest2)).2 = (digRun (d :: rest2)).2 := by
        simp [digRun, hc, hd]
      rw [hsnd, List.cons_append, List.cons_append, ← hu]
    · intro x hx
      rcases List.mem_cons.mp hx with rfl | hx2
      · exact Or.inl hc
      · rcases List.mem_cons.mp hx2 with rfl | hx3
        · exact Or.inr rfl
        · exact hall x hx3
  | case3 c d rest2 hc hd =>
    refine ⟨[c], ?_, ?_⟩
    · have hsnd : (digRun (c :: '_' :: d :: rest2)).2 = '_' :: d :: rest2 := by
        simp [digRun, hc, hd]
      rw [hsnd]
      rfl
    · intro x hx
      simp at hx
      subst hx
      exact Or.inl hc
  | case4 c d rest2 hc =>
    refine ⟨[], ?_, by simp⟩
    have hsnd : (digRun (c :: '_' :: d :: rest2)).2 = c :: '_' :: d :: rest2 := by
      simp [digRun, hc]
    rw [hsnd]
    rfl
  | case5 c rest hne hc ih =>
    obtain ⟨u, hu, hall⟩ := ih
    refine ⟨c :: u, ?_, ?_⟩
    · have hrw := digRun_cons_eq c rest (fun d rest2 => hne d rest2)
      rw [hrw, if_pos hc, List.cons_append, ← hu]
    · intro x hx
      rcases List.mem_cons.mp hx with rfl | hx2
      · exact Or.inl hc
      · exact hall x hx2
  | case6 c rest hne hc =>
    refine ⟨[], ?_, by simp⟩
    have hrw := digRun_cons_eq c rest (fun d rest2 => hne d rest2)
    rw [hrw, if_neg hc]
    rfl

theorem fracPart_decomp (x : List Char) : ∃ u, x = u ++ (fracPart x).2 ∧
    ∀ c ∈ u, c.isDigit = true ∨ c = '_' ∨ c = '.' := by
  unfold fracPart
  split
  · rename_i r
    obtain ⟨u, hu, hall⟩ := digRun_decomp r
    refine ⟨'.' :: u, ?_, ?_⟩
    · rw [List.cons_append, ← hu]
    · intro c hc
      rcases List.mem_cons.mp hc with rfl | hc2
      · exact Or.inr (Or.inr rfl)
      · rcases hall c hc2 with h | h
        · exact Or.inl h
        · exact Or.inr (Or.inl h)
  · exact ⟨[], rfl, by simp⟩

theorem takeSign_decomp (x : List Char) :
    x = (takeSign x).2 ∨ x = '-' :: (takeSign x).2 ∨ x = '+' :: (takeSign x).2 := by
  unfold takeSign
  split
  · exact Or.inr (Or.inl rfl)
  · exact Or.inr (Or.inr rfl)
  · exact Or.inl rfl

theorem parseExp_chars (mant : ℚ) (r : List Char) (q : ℚ) (h : parseExp mant r = some q) :
    ∀ c ∈ r, c.isDigit = true ∨ c = '_' ∨ c = '+' ∨ c = '-' := by
  unfold parseExp at h
  by_cases hcond : (digRun (takeSign r).2).1.isEmpty || !(digRun (takeSign r).2).2.isEmpty
  · rw [if_pos hcond] at h
    exact absurd h (by simp)
  · rw [if_neg hcond] at h
    simp only [Bool.or_eq_true, not_or, Bool.not_eq_true] at hcond
    have hr2 : (digRun (takeSign r).2).2 = [] := by
      rcases hcond with ⟨_, h2⟩
      simpa using h2
    obtain ⟨u, hu, hall⟩ := digRun_decomp (takeSign r).2
    rw [hr2, List.append_nil] at hu
    have hs2 : ∀ c ∈ (takeSign r).2, c.isDigit = true ∨ c = '_' := by
      intro c hc
      rw [hu] at hc
      exact hall c hc
    intro c hc
    rcases takeSign_decomp r with hts | hts | hts
    · rw [hts] at hc
      rcases hs2 c hc with h1 | h1
      · exact Or.inl h1
      · exact Or.inr (Or.inl h1)
    · rw [hts] at hc
      rcases List.mem_cons.mp hc with rfl | hc2
      · exact Or.inr (Or.inr (Or.inr rfl))
      · rcases hs2 c hc2 with h1 | h1
        · exact Or.inl h1
        · exact Or.inr (Or.inl h1)
    · rw [hts] at hc
      rcases List.mem_cons.mp hc with rfl | hc2
      · exact Or.inr (Or.inr (Or.inl rfl))
      · rcases hs2 c hc2 with h1 | h1
        · exact Or.inl h1
        · exact Or.inr (Or.inl h1)

theorem expTail_chars (mant : ℚ) (x : List Char) (q : ℚ) (h : expTail mant x = some q) :
    ∀ c ∈ x, c.isDigit = true ∨ c = '_' ∨ c = '+' ∨ c = '-' ∨ c = 'e' ∨ c = 'E' := by
  unfold expTail at h
  split at h
  · intro c hc
    simp at hc
  · rename_i r3
    intro c hc
    rcases List.mem_cons.mp hc with rfl | hc2
    · exact Or.inr (Or.inr (Or.inr (Or.inr (Or.inl rfl))))
    · rcases parseExp_chars mant r3 q h c hc2 with h1 | h1 | h1 | h1
      · exact Or.inl h1
      · exact Or.inr (Or.inl h1)
      · exact Or.inr (Or.inr (Or.inl h1))
      · exact Or.inr (Or.inr (Or.inr (Or.inl h1)))
  · rename_i r3
    intro c hc
    rcases List.mem_cons.mp hc with rfl | hc2
    · exact Or.inr (Or.inr (Or.inr (Or.inr (Or.inr rfl))))
    · rcases parseExp_chars mant r3 q h c hc2 with h1 | h1 | h1 | h1
      · exact Or.inl h1
      · exact Or.inr (Or.inl h1)
      · exact Or.inr (Or.inr (Or.inl h1))
      · exact Or.inr (Or.inr (Or.inr (Or.inl h1)))
  · exact absurd h (by simp)

/-- Every character consumed by a successful `parseDecimal` is a digit,
underscore, point, exponent marker, or sign. -/
theorem parseDecimal_chars (t : List Char) (q : ℚ) (h : parseDecimal t = some q) :
    ∀ c ∈ t, c.isDigit = true ∨ c = '_' ∨ c = '.' ∨ c = '+' ∨ c = '-' ∨
      c = 'e' ∨ c = 'E' := by
  unfold parseDecimal at h
  by_cases hcond : (digRun t).1.isEmpty && (fracPart (digRun t).2).1.isEmpty
  · rw [if_pos hcond] at h
    exact absurd h (by simp)
  · rw [if_neg hcond] at h
    obtain ⟨u1, hu1, hall1⟩ := digRun_decomp t
    obtain ⟨u2, hu2, hall2⟩ := fracPart_decomp (digRun t).2
    have htail := expTail_chars _ _ _ h
    intro c hc
    rw [hu1] at hc
    rcases List.mem_append.mp hc with hc1 | hc2
    · rcases hall1 c hc1 with h1 | h1
      · exact Or.inl h1
      · exact Or.inr (Or.inl h1)
    · rw [hu2] at hc2
      rcases List.mem_append.mp hc2 with hc3 | hc4
      · rcases hall2 c hc3 with h1 | h1 | h1
        · exact Or.inl h1
        · exact Or.inr (Or.inl h1)
        · exact Or.inr (Or.inr (Or.inl h1))
      · rcases htail c hc4 with h1 | h1 | h1 | h1 | h1 | h1
        · exact Or.inl h1
        · exact Or.inr (Or.inl h1)
        · exact Or.inr (Or.inr (Or.inr (Or.inl h1)))
        · exact Or.inr (Or.inr (Or.inr (Or.inr (Or.inl h1))))
        · exact Or.inr (Or.inr (Or.inr (Or.inr (Or.inr (Or.inl h1)))))
        · exact Or.inr (Or.inr (Or.inr (Or.inr (Or.inr (Or.inr h1)))))

theorem isPySpace_of_digit (c : Char) (h : c.isDigit = true) : isPySpace c = false := by
  unfold isPySpace
  simp only [Bool.or_eq_false_iff, decide_eq_false_iff_not]
  refine ⟨⟨⟨⟨⟨?_, ?_⟩, ?_⟩, ?_⟩, ?_⟩, ?_⟩ <;>
    (intro he; rw [he] at h; exact absurd h (by decide))

theorem mem_dropWhile_of_not (p : Char → Bool) (l : List Char) (c : Char)
    (hc : c ∈ l) (hp : p c = false) : c ∈ l.dropWhile p := by
  induction l with
  | nil => simp at hc
  | cons x xs ih =>
    by_cases hx : p x
    · rw [List.dropWhile_cons, if_pos hx]
      rcases List.mem_cons.mp hc with rfl | h2
      · rw [hx] at hp; simp at hp
      · exact ih h2
    · rw [List.dropWhile_cons, if_neg hx]
      exact hc

theorem mem_stripL_of_not_space (l : List Char) (c : Char)
    (hc : c ∈ l) (hp : isPySpace c = false) : c ∈ stripL l := by
  unfold stripL
  rw [List.mem_reverse]
  apply mem_dropWhile_of_not _ _ _ _ hp
  rw [List.mem_reverse]
  exact mem_dropWhile_of_not _ _ _ hc hp

theorem count_dropWhile_eq (p : Char → Bool) (sep : Char) (hps : p sep = false) :
    ∀ l : List Char, (l.dropWhile p).count sep = l.count sep := by
  intro l
  induction l with
  | nil => rfl
  | cons x xs ih =>
    by_cases hx : p x
    · rw [List.dropWhile_cons, if_pos hx, ih]
      have hne : ¬ (sep == x) = true := by
        simp only [beq_iff_eq]
        intro he
        rw [← he, hps] at hx
        simp at hx
      simp [List.count_cons, hne]
      intro he
      rw [he, hps] at hx
      simp at hx
    · rw [List.dropWhile_cons, if_neg hx]

theorem count_stripL (l : List Char) (sep : Char) (hps : isPySpace sep = false) :
    (stripL l).count sep = l.count sep := by
  unfold stripL
  rw [List.count_reverse, count_dropWhile_eq _ _ hps, List.count_reverse,
    count_dropWhile_eq _ _ hps]

theorem splitAllAux_length (sep : Char) :
    ∀ t : List Char, (splitAllAux sep t).length = t.count sep + 1 := by
  intro t
  induction t with
  | nil => rfl
  | cons c rest ih =>
    unfold splitAllAux
    by_cases hc : c = sep
    · rw [if_pos hc, List.length_cons, ih]
      subst hc
      simp [List.count_cons]
    · rw [if_neg hc]
      rcases hsp : splitAllAux sep rest with _ | ⟨hh, tl⟩
      · exact absurd hsp (splitAllAux_ne_nil sep rest)
      · rw [hsp] at ih
        simp only [List.length_cons] at ih ⊢
        have hcnt : (c :: rest).count sep = rest.count sep := by
          have hne : ¬ (sep == c) = true := by
            simp only [beq_iff_eq]
            exact fun he => hc he.symm
          simp [List.count_cons, hne]
          exact hc
        omega

theorem splitFirst_decomp (sep : Char) :
    ∀ t : List Char, sep ∈ t →
      t = (splitFirst sep t).1 ++ sep :: (splitFirst sep t).2 ∧
        sep ∉ (splitFirst sep t).1 := by
  intro t
  induction t with
  | nil => intro h; simp at h
  | cons c rest ih =>
    intro h
    unfold splitFirst
    by_cases hc : c = sep
    · subst hc
      simp
    · simp only [if_neg hc]
      have hmem : sep ∈ rest := by
        rcases List.mem_cons.mp h with heq | h2
        · exact absurd heq.symm hc
        · exact h2
      obtain ⟨hdec, hni⟩ := ih hmem
      constructor
      · conv_lhs => rw [hdec]
        rfl
      · intro hin
        rcases List.mem_cons.mp hin with heq | h2
        · exact hc heq.symm
        · exact hni h2

theorem splitAllAux_no_sep (sep : Char) :
    ∀ b : List Char, sep ∉ b → splitAllAux sep b = [b] := by
  intro b
  induction b with
  | nil => intro _; rfl
  | cons c rest ih =>
    intro h
    unfold splitAllAux
    have hc : ¬ c = sep := fun he => h (by rw [he]; simp)
    rw [if_neg hc, ih (fun hm => h (List.mem_cons_of_mem _ hm))]

theorem splitAllAux_app (sep : Char) (a b : List Char) (hna : sep ∉ a) (hnb : sep ∉ b) :
    splitAllAux sep (a ++ sep :: b) = [a, b] := by
  induction a with
  | nil =>
    simp only [List.nil_append]
    unfold splitAllAux
    rw [if_pos rfl, splitAllAux_no_sep sep b hnb]
  | cons c a' ih =>
    have hc : ¬ c = sep := fun he => hna (by rw [he]; simp)
    have hna' : sep ∉ a' := fun hm => hna (List.mem_cons_of_mem _ hm)
    rw [List.cons_append]
    unfold splitAllAux
    rw [if_neg hc, ih hna']

theorem containsChar_of_mem (l : List Char) (a : Char) (h : a ∈ l) : l.contains a = true := by
  induction l with
  | nil => simp at h
  | cons x xs ih =>
    rcases List.mem_cons.mp h with rfl | h2
    · simp [List.contains_cons]
    · simp [List.contains_cons]
      exact Or.inr h2

theorem digRun_all_digits (l : List Char) (h : ∀ c ∈ l, c.isDigit = true) :
    digRun l = (l, []) := by
  induction l using digRun.induct with
  | case1 => rfl
  | case2 c d rest2 hc hd ih =>
    have hrec := ih (fun x hx => h x (List.mem_cons_of_mem _ (List.mem_cons_of_mem _ hx)))
    have hu : ('_' : Char).isDigit = true := h '_' (by simp)
    simp at hu
  | case3 c d rest2 hc hd =>
    have hu : ('_' : Char).isDigit = true := h '_' (by simp)
    simp at hu
  | case4 c d rest2 hc =>
    exact absurd (h c (by simp)) hc
  | case5 c rest hne hc ih =>
    have hrec := ih (fun x hx => h x (List.mem_cons_of_mem _ hx))
    rw [digRun_cons_eq c rest (fun d rest2 => hne d rest2), if_pos hc, hrec]
  | case6 c rest hne hc =>
    exact absurd (h c (by simp)) hc

theorem takeSign_no_sign (c : Char) (rest : List Char) (h1 : ¬ c = '-') (h2 : ¬ c = '+') :
    takeSign (c :: rest) = (false, c :: rest) := by
  unfold takeSign
  split
  · rename_i heq
    rw [List.cons.injEq] at heq
    exact absurd heq.1 h1
  · rename_i heq
    rw [List.cons.injEq] at heq
    exact absurd heq.1 h2
  · rfl

theorem stripL_eq_self (l : List Char) (h : ∀ c ∈ l, isPySpace c = false) :
    stripL l = l := by
  unfold stripL
  have h1 : l.dropWhile isPySpace = l := by
    apply dropWhile_eq_self_of_head
    intro c hc
    cases l with
    | nil => simp at hc
    | cons x xs =>
      simp at hc
      exact hc ▸ h x (by simp)
  rw [h1]
  have h2 : l.reverse.dropWhile isPySpace = l.reverse := by
    apply dropWhile_eq_self_of_head
    intro c hc
    cases hl : l.reverse with
    | nil => rw [hl] at hc; simp at hc
    | cons x xs =>
      rw [hl] at hc
      simp at hc
      subst hc
      apply h
      rw [← List.mem_reverse, hl]
      simp
  rw [h2, List.reverse_reverse]

theorem pyIntOfL_digits (mm : List Char) (hne : mm ≠ []) (hdig : ∀ c ∈ mm, c.isDigit = true) :
    pyIntOfL mm = some (natVal mm : ℤ) := by
  have hnsp : ∀ c ∈ mm, isPySpace c = false := fun c hc => isPySpace_of_digit c (hdig c hc)
  have hstrip : stripL mm = mm := stripL_eq_self mm hnsp
  rcases mm with _ | ⟨c0, rest⟩
  · exact absurd rfl hne
  · have hc0 : c0.isDigit = true := hdig c0 (by simp)
    have hsign : takeSign (c0 :: rest) = (false, c0 :: rest) := by
      apply takeSign_no_sign
      · intro he; rw [he] at hc0; simp at hc0
      · intro he; rw [he] at hc0; simp at hc0
    have hrun : digRun (c0 :: rest) = (c0 :: rest, []) := digRun_all_digits _ hdig
    unfold pyIntOfL
    rw [hstrip, hsign]
    simp only [hrun]
    simp

theorem pyFloatOfL_colon (x : List Char) (hc : ':' ∈ x) : pyFloatOfL x = none := by
  have hcs : ':' ∈ stripL x := mem_stripL_of_not_space x ':' hc (by decide)
  rcases hst : stripL x with _ | ⟨c0, r0⟩
  · rw [hst] at hcs; simp at hcs
  · rw [pyFloatOfL_cons x c0 r0 hst]
    rw [hst] at hcs
    have hct : ':' ∈ (takeSign (c0 :: r0)).2 := by
      rcases takeSign_decomp (c0 :: r0) with hts | hts | hts
      · rw [← hts]; exact hcs
      · rw [hts] at hcs
        rcases List.mem_cons.mp hcs with heq | h2
        · exact absurd heq (by decide)
        · exact h2
      · rw [hts] at hcs
        rcases List.mem_cons.mp hcs with heq | h2
        · exact absurd heq (by decide)
        · exact h2
    have hlow : ':' ∈ lowerL (takeSign (c0 :: r0)).2 := by
      unfold lowerL
      have : Char.toLower ':' = ':' := by decide
      rw [← this]
      exact List.mem_map_of_mem _ hct
    have h1 : ¬ lowerL (takeSign (c0 :: r0)).2 = infTok := by
      intro he; rw [he] at hlow; exact absurd hlow (by decide)
    have h2 : ¬ lowerL (takeSign (c0 :: r0)).2 = infinityTok := by
      intro he; rw [he] at hlow; exact absurd hlow (by decide)
    have h3 : ¬ lowerL (takeSign (c0 :: r0)).2 = nanTok := by
      intro he; rw [he] at hlow; exact absurd hlow (by decide)
    rcases hpd : parseDecimal (takeSign (c0 :: r0)).2 with _ | q
    · simp [h1, h2, h3, hpd]
    · exfalso
      rcases parseDecimal_chars _ q hpd ':' hct with h | h | h | h | h | h | h <;>
        exact absurd h (by decide)

/-- Unfolding of `convert_to_seconds` on a nonempty string. -/
theorem convert_to_seconds_eq (s : String) (he : s.isEmpty = false) :
    convert_to_seconds s =
      (if (stripL s.toList).contains ':' then
        match pyFloatOfL (splitFirst ':' (stripL s.toList)).1,
            pyFloatOfL (splitFirst ':' (stripL s.toList)).2 with
        | some a, some b => pyAdd (pyMul a (PyFloat.fin 60)) b
        | _, _ => PyFloat.fin 0
      else
        match pyFloatOfL (stripL s.toList) with
        | some v => v
        | none => PyFloat.fin 0) := by
  have hd : convert_to_seconds s =
      if s.isEmpty then PyFloat.fin 0
      else
        (if (stripL s.toList).contains ':' then
          match pyFloatOfL (splitFirst ':' (stripL s.toList)).1,
              pyFloatOfL (splitFirst ':' (stripL s.toList)).2 with
          | some a, some b => pyAdd (pyMul a (PyFloat.fin 60)) b
          | _, _ => PyFloat.fin 0
        else
          match pyFloatOfL (stripL s.toList) with
          | some v => v
          | none => PyFloat.fin 0) := rfl
  rw [hd, he]
  rfl

/-- C4 (amended): only a single colon is supported.  Every string with two or
more colons is invalid for both implementations (`parse_seconds` raises to
`None`, `convert_to_seconds` to `0.0`), so "HH:MM:SS.ss" is not parsed; for a
single-colon string whose left part is digits and whose right part is a valid
finite float, `parse_seconds` returns minutes * 60 + seconds. -/
theorem parse_seconds_single_colon_only :
    (∀ s : String, 2 ≤ s.toList.count ':' →
        parse_seconds (some s) = none ∧ convert_to_seconds s = PyFloat.fin 0) ∧
      ∀ (mm rest : List Char) (q : ℚ), mm ≠ [] → (∀ c ∈ mm, c.isDigit = true) →
        (∀ c ∈ rest, isPySpace c = false) → ':' ∉ rest →
        pyFloatOfL rest = some (PyFloat.fin q) →
        parse_seconds (some ⟨mm ++ ':' :: rest⟩) =
          some (PyFloat.fin ((natVal mm : ℚ) * 60 + q)) := by
  constructor
  · intro s hcnt
    have hne : s.toList ≠ [] := by
      intro h
      rw [h] at hcnt
      simp at hcnt
    have hemp : s.isEmpty = false := by
      by_contra h
      rw [Bool.not_eq_false] at h
      have hs0 := (String.isEmpty_iff _).mp h
      rw [hs0] at hne
      exact hne rfl
    have hcnt2 : (stripL s.toList).count ':' = s.toList.count ':' :=
      count_stripL s.toList ':' (by decide)
    have hmem : ':' ∈ stripL s.toList := by
      apply List.count_pos_iff.mp
      omega
    have hcol : (stripL s.toList).contains ':' = true := containsChar_of_mem _ _ hmem
    constructor
    · rw [parse_seconds_some s hemp, if_pos hcol]
      have hlen : 3 ≤ (splitAllAux ':' (stripL s.toList)).length := by
        rw [splitAllAux_length]
        omega
      rcases hsp2 : splitAllAux ':' (stripL s.toList) with _ | ⟨a, _ | ⟨b, _ | ⟨c3, r3⟩⟩⟩
      · exact absurd hsp2 (splitAllAux_ne_nil ':' _)
      · rfl
      · rw [hsp2] at hlen; simp at hlen
      · rfl
    · rw [convert_to_seconds_eq s hemp, if_pos hcol]
      obtain ⟨hdec, hna⟩ := splitFirst_decomp ':' _ hmem
      have hmem2 : ':' ∈ (splitFirst ':' (stripL s.toList)).2 := by
        apply List.count_pos_iff.mp
        have hcnta : ((splitFirst ':' (stripL s.toList)).1).count ':' = 0 :=
          List.count_eq_zero.mpr hna
        have : (stripL s.toList).count ':' =
            ((splitFirst ':' (stripL s.toList)).1).count ':' +
              (':' :: (splitFirst ':' (stripL s.toList)).2).count ':' := by
          conv_lhs => rw [hdec]
          exact List.count_append _ _ _
        rw [hcnta, List.count_cons_self] at this
        omega
      rw [pyFloatOfL_colon _ hmem2]
      cases pyFloatOfL (splitFirst ':' (stripL s.toList)).1 <;> rfl
  · intro mm rest q hmm hdig hnsp hncol hpf
    have htol : (⟨mm ++ ':' :: rest⟩ : String).toList = mm ++ ':' :: rest := rfl
    have hemp : (⟨mm ++ ':' :: rest⟩ : String).isEmpty = false := by
      by_contra h
      rw [Bool.not_eq_false] at h
      have hs0 := (String.isEmpty_iff _).mp h
      have hdata : mm ++ ':' :: rest = [] := by
        have := congrArg String.toList hs0
        rw [htol] at this
        exact this
      rcases mm with _ | ⟨x, xs⟩
      · simp at hdata
      · simp at hdata
    have hallns : ∀ c ∈ mm ++ ':' :: rest, isPySpace c = false := by
      intro c hcm
      rcases List.mem_append.mp hcm with h1 | h2
      · exact isPySpace_of_digit c (hdig c h1)
      · rcases List.mem_cons.mp h2 with rfl | h3
        · decide
        · exact hnsp c h3
    have hstrip : stripL ((⟨mm ++ ':' :: rest⟩ : String).toList) = mm ++ ':' :: rest := by
      rw [htol]
      exact stripL_eq_self _ hallns
    have hcol : (stripL ((⟨mm ++ ':' :: rest⟩ : String).toList)).contains ':' = true := by
      rw [hstrip]
      exact containsChar_of_mem _ _ (by simp)
    have hncolmm : ':' ∉ mm := by
      intro hin
      have := hdig ':' hin
      exact absurd this (by decide)
    have hsplit : splitAllAux ':' (stripL ((⟨mm ++ ':' :: rest⟩ : String).toList)) =
        [mm, rest] := by
      rw [hstrip]
      exact splitAllAux_app ':' mm rest hncolmm hncol
    rw [parse_seconds_some _ hemp, if_pos hcol, hsplit]
    show (match pyIntOfL mm, pyFloatOfL rest with
      | some mi, some f => some (pyAdd (PyFloat.fin ((mi : ℚ) * 60)) f)
      | _, _ => none) = some (PyFloat.fin ((natVal mm : ℚ) * 60 + q))
    rw [pyIntOfL_digits mm hmm hdig, hpf]
    show some (pyAdd (PyFloat.fin (((natVal mm : ℤ) : ℚ) * 60)) (PyFloat.fin q)) = _
    unfold pyAdd
    norm_num

/-- C4 (witness): "1:30.5" parses to 1 * 60 + 30.5 = 90.5 seconds, and
"9:9:9" (two colons) is invalid for both implementations. -/
theorem parse_seconds_single_colon_only_witness :
    (2 ≤ "9:9:9".toList.count ':' ∧ parse_seconds (some "9:9:9") = none ∧
        convert_to_seconds "9:9:9" = PyFloat.fin 0) ∧
      parse_seconds (some ⟨['1'] ++ ':' :: "30.5".toList⟩) =
        some (PyFloat.fin ((natVal ['1'] : ℚ) * 60 + 61 / 2)) := by
  constructor
  · refine ⟨by decide, ?_, ?_⟩
    · exact (parse_seconds_single_colon_only.1 "9:9:9" (by decide)).1
    · exact (parse_seconds_single_colon_only.1 "9:9:9" (by decide)).2
  · exact parse_seconds_single_colon_only.2 ['1'] "30.5".toList (61 / 2) (by decide)
      (by decide) (by decide) (by decide) (by decide)

theorem toLower_digit (c : Char) (h : c.isDigit = true) : c.toLower = c := by
  have h9 : c.toNat ≤ 57 := by
    unfold Char.isDigit at h
    simp only [Bool.and_eq_true, decide_eq_true_eq] at h
    have h2 := h.2
    rw [UInt32.le_def, BitVec.le_def] at h2
    exact h2
  unfold Char.toLower
  have hneg : ¬ (Char.toNat c ≥ 65 ∧ Char.toNat c ≤ 90) := by
    intro hcon
    omega
  rw [if_neg hneg]

/-- Unfolding of `parseDecimal`. -/
theorem parseDecimal_eq (t : List Char) :
    parseDecimal t =
      if (digRun t).1.isEmpty && (fracPart (digRun t).2).1.isEmpty then none
      else
        expTail ((natVal (digRun t).1 : ℚ) +
            (natVal (fracPart (digRun t).2).1 : ℚ) / (10 : ℚ) ^ (fracPart (digRun t).2).1.length)
          (fracPart (digRun t).2).2 := rfl

theorem pyIntOfL_to_pyFloatOfL (l : List Char) (n : ℤ) (h : pyIntOfL l = some n) :
    pyFloatOfL l = some (PyFloat.fin (n : ℚ)) := by
  unfold pyIntOfL at h
  by_cases hcond : ((digRun (takeSign (stripL l)).2).1.isEmpty ||
      !(digRun (takeSign (stripL l)).2).2.isEmpty) = true
  · rw [if_pos hcond] at h
    exact absurd h (by simp)
  · rw [if_neg hcond] at h
    obtain ⟨hA, hB⟩ := Bool.or_eq_false_iff.mp (Bool.eq_false_iff.mpr hcond)
    have hds : (digRun (takeSign (stripL l)).2).1 ≠ [] := by
      intro hnil
      rw [hnil] at hA
      simp at hA
    have hr : (digRun (takeSign (stripL l)).2).2 = [] := by
      have hBt : (digRun (takeSign (stripL l)).2).2.isEmpty = true := by simpa using hB
      exact List.isEmpty_iff.mp hBt
    obtain ⟨c1, r1, hshape, hdig⟩ := digRun_head _ hds
    have hstr_ne : stripL l ≠ [] := by
      intro hnil
      rw [hnil] at hshape
      simp [takeSign] at hshape
    rcases hst : stripL l with _ | ⟨c0, r0⟩
    · exact absurd hst hstr_ne
    · rw [hst] at hshape hds hr h
      rw [pyFloatOfL_cons l c0 r0 hst]
      have hlow : lowerL (takeSign (c0 :: r0)).2 = Char.toLower c1 :: lowerL r1 := by
        rw [hshape]
        rfl
      have htl : Char.toLower c1 = c1 := toLower_digit c1 hdig
      have h1 : ¬ lowerL (takeSign (c0 :: r0)).2 = infTok := by
        rw [hlow, htl]
        intro he
        simp only [infTok, infinityTok, nanTok, List.cons.injEq] at he
        rw [he.1] at hdig
        exact absurd hdig (by decide)
      have h2 : ¬ lowerL (takeSign (c0 :: r0)).2 = infinityTok := by
        rw [hlow, htl]
        intro he
        simp only [infTok, infinityTok, nanTok, List.cons.injEq] at he
        rw [he.1] at hdig
        exact absurd hdig (by decide)
      have h3 : ¬ lowerL (takeSign (c0 :: r0)).2 = nanTok := by
        rw [hlow, htl]
        intro he
        simp only [infTok, infinityTok, nanTok, List.cons.injEq] at he
        rw [he.1] at hdig
        exact absurd hdig (by decide)
      have hdsE : (digRun (takeSign (c0 :: r0)).2).1.isEmpty = false := by
        rcases hds0 : (digRun (takeSign (c0 :: r0)).2).1 with _ | _
        · exact absurd hds0 hds
        · rfl
      have hpd : parseDecimal (takeSign (c0 :: r0)).2 =
          some ((natVal (digRun (takeSign (c0 :: r0)).2).1 : ℚ)) := by
        rw [parseDecimal_eq, hr]
        have hfr : fracPart ([] : List Char) = ([], []) := rfl
        rw [hfr]
        simp [hdsE, expTail, natVal]
      rw [if_neg (by simp [h1, h2]), if_neg (by simp [h3]), hpd]
      rcases hsgn : (takeSign (c0 :: r0)).1 with _ | _
      · rw [hsgn] at h
        simp only [if_false, Bool.false_eq_true] at h
        rw [Option.some.injEq] at h
        simp only [if_false, Bool.false_eq_true, Option.map_some]
        rw [← h]
        norm_num
      · rw [hsgn] at h
        simp only [if_true] at h
        rw [Option.some.injEq] at h
        simp only [if_true, Option.map_some]
        rw [← h]
        norm_num

theorem splitFirst_app (sep : Char) (a b : List Char) (hna : sep ∉ a) :
    splitFirst sep (a ++ sep :: b) = (a, b) := by
  induction a with
  | nil =>
    simp only [List.nil_append]
    unfold splitFirst
    rw [if_pos rfl]
  | cons c a' ih =>
    have hc : ¬ c = sep := fun he => hna (by rw [he]; simp)
    have hna' : sep ∉ a' := fun hm => hna (List.mem_cons_of_mem _ hm)
    rw [List.cons_append]
    unfold splitFirst
    rw [if_neg hc, ih hna']

/-- C10: wherever `parse_seconds` (routes) succeeds with a numeric value,
`convert_to_seconds` (utils) returns the same value; the two implementations
differ only in how they represent failure (`None` versus `0.0`). -/
theorem parse_agrees_with_convert (s : String) (v : PyFloat)
    (h : parse_seconds (some s) = some v) : convert_to_seconds s = v := by
  by_cases hemp : s.isEmpty
  · rw [show parse_seconds (some s) =
      (if s.isEmpty then none
       else
        (if (stripL s.toList).contains ':' then
          match splitAllAux ':' (stripL s.toList) with
          | [m, sec] =>
            match pyIntOfL m, pyFloatOfL sec with
            | some mi, some f => some (pyAdd (PyFloat.fin ((mi : ℚ) * 60)) f)
            | _, _ => none
          | _ => none
        else pyFloatOfL (stripL s.toList))) from rfl, if_pos hemp] at h
    exact absurd h (by simp)
  · have hemp' : s.isEmpty = false := Bool.eq_false_iff.mpr hemp
    rw [parse_seconds_some s hemp'] at h
    rw [convert_to_seconds_eq s hemp']
    by_cases hcol : (stripL s.toList).contains ':' = true
    · rw [if_pos hcol] at h ⊢
      rcases hsp2 : splitAllAux ':' (stripL s.toList) with _ | ⟨a, _ | ⟨b, _ | ⟨c3, r3⟩⟩⟩
      · exact absurd hsp2 (splitAllAux_ne_nil ':' _)
      · rw [hsp2] at h
        exact absurd h (by simp)
      · rw [hsp2] at h
        obtain ⟨hdec, hna, hnb⟩ := splitAllAux_pair ':' _ a b hsp2
        have hsf : splitFirst ':' (stripL s.toList) = (a, b) := by
          rw [hdec]
          exact splitFirst_app ':' a b hna
        rw [hsf]
        show (match pyFloatOfL a, pyFloatOfL b with
          | some x, some y => pyAdd (pyMul x (PyFloat.fin 60)) y
          | _, _ => PyFloat.fin 0) = v
        have h' : (match pyIntOfL a, pyFloatOfL b with
          | some mi, some f => some (pyAdd (PyFloat.fin ((mi : ℚ) * 60)) f)
          | _, _ => none) = some v := h
        rcases hia : pyIntOfL a with _ | mi
        · rw [hia] at h'
          simp at h'
        · rcases hfb : pyFloatOfL b with _ | f
          · rw [hia, hfb] at h'
            simp at h'
          · rw [hia, hfb] at h'
            have hsome : some (pyAdd (PyFloat.fin ((mi : ℚ) * 60)) f) = some v := h'
            rw [Option.some.injEq] at hsome
            rw [pyIntOfL_to_pyFloatOfL a mi hia, ← hsome]
            rfl
      · rw [hsp2] at h
        exact absurd h (by simp)
    · rw [if_neg hcol] at h ⊢
      rw [h]

/-- C10 (witness): on "1:30.5" the routes parser returns 90.5 seconds and the
utils converter agrees. -/
theorem parse_agrees_with_convert_witness :
    parse_seconds (some "1:30.5") = some (PyFloat.fin (181 / 2)) ∧
      convert_to_seconds "1:30.5" = PyFloat.fin (181 / 2) :=
  ⟨by decide, parse_agrees_with_convert "1:30.5" (PyFloat.fin (181 / 2)) (by decide)⟩

/-- C9 (witness): "abc" has no digits and is not a special float token, so
the Time Parser rejects it. -/
theorem parse_seconds_invalid_inputs_witness :
    hasDigitL "abc".toList = false ∧ isSpecialFloat "abc".toList = false ∧
      parse_seconds (some "abc") = none :=
  ⟨by decide, by decide, parse_seconds_invalid_inputs.2.2 "abc" (by decide) (by decide)⟩

/-- C7 (witness): the concrete already-canonical name 台中市長盃 satisfies both
stability hypotheses, and one application of the normalizer equals two. -/
theorem clean_meet_name_idempotent_on_stable_witness :
    meetMap.all (fun p => !containsL p.1 (cleanL "台中市長盃".toList)) = true ∧
      regexPass (cleanL "台中市長盃".toList) = cleanL "台中市長盃".toList ∧
      clean_meet_name (some (clean_meet_name (some "台中市長盃"))) =
        clean_meet_name (some "台中市長盃") :=
  ⟨by decide, by decide,
    clean_meet_name_idempotent_on_stable "台中市長盃" (by decide) (by decide)⟩

theorem mem_fold_add [DecidableEq α] (nms : List α) (acc : List α) (x : α) :
    x ∈ nms.foldl (fun a nm => if nm ∈ a then a else a ++ [nm]) acc ↔ x ∈ acc ∨ x ∈ nms := by
  induction nms generalizing acc with
  | nil => simp
  | cons n ns ih =>
    rw [List.foldl_cons]
    by_cases hn : n ∈ acc
    · rw [if_pos hn, ih]
      simp only [List.mem_cons]
      constructor
      · rintro (h | h)
        · exact Or.inl h
        · exact Or.inr (Or.inr h)
      · rintro (h | rfl | h)
        · exact Or.inl h
        · exact Or.inl hn
        · exact Or.inr h
    · rw [if_neg hn, ih]
      simp only [List.mem_append, List.mem_cons, List.mem_singleton]
      tauto

theorem mem_dedupL [DecidableEq α] (l : List α) (x : α) : x ∈ dedupL l ↔ x ∈ l := by
  unfold dedupL
  rw [mem_fold_add]
  simp

theorem mem_opponentsOf (db : List Row) (name stroke cand : String) :
    cand ∈ opponentsOf db name stroke ↔
      ∃ k ∈ targetGroups db name stroke,
        cand ∈ (db.filter (candFilter name k)).map Row.name := by
  unfold opponentsOf
  have key : ∀ (ks : List MeetKey) (acc : List String),
      cand ∈ ks.foldl (fun acc k =>
          (dedupL ((db.filter (candFilter name k)).map Row.name)).foldl
            (fun a nm => if nm ∈ a then a else a ++ [nm]) acc) acc ↔
        cand ∈ acc ∨ ∃ k ∈ ks, cand ∈ (db.filter (candFilter name k)).map Row.name := by
    intro ks
    induction ks with
    | nil => intro acc; simp
    | cons k ks ih =>
      intro acc
      rw [List.foldl_cons, ih, mem_fold_add, mem_dedupL]
      simp only [List.mem_cons]
      constructor
      · rintro ((h | h) | ⟨k2, hk2, h⟩)
        · exact Or.inl h
        · exact Or.inr ⟨k, Or.inl rfl, h⟩
        · exact Or.inr ⟨k2, Or.inr hk2, h⟩
      · rintro (h | ⟨k2, (rfl | hk2), h⟩)
        · exact Or.inl (Or.inl h)
        · exact Or.inl (Or.inr h)
        · exact Or.inr ⟨k2, hk2, h⟩
  rw [key]
  simp

theorem opponentsOf_ne_target (db : List Row) (name stroke cand : String)
    (h : cand ∈ opponentsOf db name stroke) : cand ≠ name := by
  rw [mem_opponentsOf] at h
  obtain ⟨k, _, hc⟩ := h
  rw [List.mem_map] at hc
  obtain ⟨r, hr, hname⟩ := hc
  rw [List.mem_filter] at hr
  have hcf := hr.2
  unfold candFilter at hcf
  simp only [Bool.and_eq_true, bne_iff_ne, ne_eq] at hcf
  rw [← hname]
  exact hcf.1.2

/-- C5: opponent-pool membership holds exactly when the candidate shares a
(date, meet, event) combination with a record of the target in the event,
with equal division additionally required when the target's division on that
record is not purely numeric. -/
theorem opponent_pool_membership_iff (db : List Row) (name stroke cand : String) :
    cand ∈ opponentsOf db name stroke ↔ PoolSpec db name stroke cand := by
  rw [mem_opponentsOf]
  unfold PoolSpec
  constructor
  · rintro ⟨k, hk, hcand⟩
    unfold targetGroups at hk
    rw [mem_dedupL, List.mem_map] at hk
    obtain ⟨r, hr, hkey⟩ := hk
    rw [List.mem_filter] at hr
    simp only [Bool.and_eq_true, beq_iff_eq] at hr
    rw [List.mem_map] at hcand
    obtain ⟨c, hc, hcname⟩ := hcand
    rw [List.mem_filter] at hc
    have hcf := hc.2
    unfold candFilter at hcf
    simp only [Bool.and_eq_true, beq_iff_eq, bne_iff_ne, ne_eq, Bool.or_eq_true] at hcf
    subst hkey
    constructor
    · rw [← hcname]
      exact hcf.1.2
    · refine ⟨r, hr.1, hr.2.1, hr.2.2, c, hc.1, hcname, ?_, ?_, ?_, ?_⟩
      · exact hcf.1.1.1.1
      · exact hcf.1.1.1.2
      · exact hcf.1.1.2
      · rcases hcf.2 with h | h
        · exact Or.inl h
        · exact Or.inr h
  · rintro ⟨hne, r, hrdb, hrname, hritem, c, hcdb, hcname, hyear, hmeet, hitem, hgrp⟩
    refine ⟨⟨r.year, r.meet, r.item, grpC r⟩, ?_, ?_⟩
    · unfold targetGroups
      rw [mem_dedupL, List.mem_map]
      refine ⟨r, ?_, rfl⟩
      rw [List.mem_filter]
      simp only [Bool.and_eq_true, beq_iff_eq]
      exact ⟨hrdb, hrname, hritem⟩
    · rw [List.mem_map]
      refine ⟨c, ?_, hcname⟩
      rw [List.mem_filter]
      refine ⟨hcdb, ?_⟩
      unfold candFilter
      simp only [Bool.and_eq_true, beq_iff_eq, bne_iff_ne, ne_eq, Bool.or_eq_true]
      refine ⟨⟨⟨⟨hyear, hmeet⟩, hitem⟩, ?_⟩, ?_⟩
      · rw [hcname]
        exact hne
      · rcases hgrp with h | h
        · exact Or.inl h
        · exact Or.inr h

theorem mem_insBy (lt : α → α → Bool) (b : α) (l : List α) (x : α) :
    x ∈ insBy lt b l ↔ x = b ∨ x ∈ l := by
  induction l with
  | nil => simp [insBy]
  | cons y ys ih =>
    unfold insBy
    by_cases hlt : lt b y
    · rw [if_pos hlt]
      simp [List.mem_cons]
    · rw [if_neg hlt]
      simp only [List.mem_cons, ih]
      tauto

theorem length_insBy (lt : α → α → Bool) (b : α) (l : List α) :
    (insBy lt b l).length = l.length + 1 := by
  induction l with
  | nil => rfl
  | cons y ys ih =>
    unfold insBy
    by_cases hlt : lt b y
    · rw [if_pos hlt]
      rfl
    · rw [if_neg hlt]
      simp [ih]

theorem mem_insSortBy (lt : α → α → Bool) (l : List α) (x : α) :
    x ∈ insSortBy lt l ↔ x ∈ l := by
  unfold insSortBy
  have key : ∀ (l acc : List α),
      (x ∈ l.foldl (fun acc y => insBy lt y acc) acc ↔ x ∈ acc ∨ x ∈ l) := by
    intro l
    induction l with
    | nil => intro acc; simp
    | cons y ys ih =>
      intro acc
      rw [List.foldl_cons, ih, mem_insBy]
      simp only [List.mem_cons]
      tauto
  rw [key]
  simp

theorem length_insSortBy (lt : α → α → Bool) (l : List α) :
    (insSortBy lt l).length = l.length := by
  unfold insSortBy
  have key : ∀ (l acc : List α),
      (l.foldl (fun acc y => insBy lt y acc) acc).length = acc.length + l.length := by
    intro l
    induction l with
    | nil => intro acc; simp
    | cons y ys ih =>
      intro acc
      rw [List.foldl_cons, ih, length_insBy]
      simp only [List.length_cons]
      omega
  rw [key]
  simp

theorem length_withRanks (n : ℕ) (l : List BRow) : (withRanks n l).length = l.length := by
  induction l generalizing n with
  | nil => rfl
  | cons b bs ih =>
    unfold withRanks
    simp [ih]

theorem mem_withRanks (n : ℕ) (l : List BRow) (p : ℕ × BRow) (h : p ∈ withRanks n l) :
    n ≤ p.1 ∧ p.1 < n + l.length ∧ p.2 ∈ l := by
  induction l generalizing n with
  | nil => simp [withRanks] at h
  | cons b bs ih =>
    unfold withRanks at h
    rcases List.mem_cons.mp h with rfl | h2
    · simp
    · obtain ⟨h1, h2, h3⟩ := ih (n + 1) h2
      refine ⟨by omega, ?_, List.mem_cons_of_mem _ h3⟩
      simp only [List.length_cons]
      omega

theorem length_filterMap_board (f : String → Option (PyFloat × String × String))
    (g : String → PyFloat × String × String → BRow) (l : List String) :
    (l.filterMap (fun nm => (f nm).map (g nm))).length =
      (l.filter (fun nm => (f nm).isSome)).length := by
  induction l with
  | nil => rfl
  | cons x xs ih =>
    rw [List.filterMap_cons, List.filter_cons]
    rcases hfx : f x with _ | b
    · simp [ih]
    · simp [ih]

theorem mem_boardOf (db : List Row) (name stroke : String) (b : BRow)
    (h : b ∈ boardOf db name stroke) :
    b.name ∈ allNamesOf db name stroke ∧
      best_of db b.name stroke = some (b.pbSec, b.pbYear, b.pbMeet) := by
  unfold boardOf at h
  rw [List.mem_filterMap] at h
  obtain ⟨nm, hnm, hmap⟩ := h
  rcases hbo : best_of db nm stroke with _ | t
  · rw [hbo] at hmap
    simp at hmap
  · rw [hbo] at hmap
    have hmap2 : some (⟨nm, t.1, t.2.1, t.2.2⟩ : BRow) = some b := hmap
    injection hmap2 with hmap3
    rw [← hmap3]
    exact ⟨hnm, hbo⟩

/-- Unfolding of `rank_api`. -/
theorem rank_api_eq (db : List Row) (name stroke : String) :
    rank_api db name stroke =
      if (opponentsOf db name stroke).isEmpty then ⟨0, none, none, none, []⟩
      else if (boardOf db name stroke).isEmpty then ⟨0, none, none, none, []⟩
      else
        ⟨(rankedOf db name stroke).length,
         ((rankedOf db name stroke).find? (fun p => p.2.name == name)).map (fun p => p.1),
         (match (((rankedOf db name stroke).find? (fun p => p.2.name == name)).map
             (fun p => p.1) : Option ℕ) with
          | none => none
          | some k =>
            if k = 0 then none
            else some (100 * (((rankedOf db name stroke).length : ℚ) - (k : ℚ)) /
              ((rankedOf db name stroke).length : ℚ))),
         (sortedOf db name stroke).head?.map (fun b => (b.name, b.pbSec)),
         (rankedOf db name stroke).take 10⟩ := rfl

/-- C6 (counterexample): a target whose only result is "nan" has no valid
(positive finite) time in the event, yet `rank_api` does not return null rank
and percentile: nan passes both guards of `best_of` (`nan is None` and
`nan <= 0` are false), so the target joins the board and is ranked second of
two with percentile 0, refuting the claimed failure mode as stated. -/
theorem rank_api_nan_counterexample :
    eligTimes dbNanRank "A" "50公尺蛙式" = [] ∧
      best_of dbNanRank "A" "50公尺蛙式" = some (PyFloat.nan, "2023", "公開賽") ∧
      (rank_api dbNanRank "A" "50公尺蛙式").rank = some 2 ∧
      (rank_api dbNanRank "A" "50公尺蛙式").percentile = some 0 := by decide

/-- C6 (amended): the Ranking Builder's failure mode is governed by the
code's own guard, `best_of` returning null for the target — no parseable
time of the target survives the winter short-course and `sec <= 0` checks,
where a nan time counts as present — not by the absence of a valid
(positive finite) time.  When `best_of` is null, `rank_api` returns null
rank and percentile, while the denominator still counts the pool members
with a non-null personal best and the top list (of at most ten ranked
members, none of them the target) and leader are still produced. -/
theorem rank_api_no_valid_target_time (db : List Row) (name stroke : String)
    (h : best_of db name stroke = none) :
    (rank_api db name stroke).rank = none ∧
      (rank_api db name stroke).percentile = none ∧
      (rank_api db name stroke).denominator = (validPool db name stroke).length ∧
      (rank_api db name stroke).top.length = min 10 (rank_api db name stroke).denominator ∧
      (∀ p ∈ (rank_api db name stroke).top, p.2.name ≠ name) ∧
      ((rank_api db name stroke).denominator ≠ 0 →
        (rank_api db name stroke).leader.isSome = true) := by
  have hval : (validPool db name stroke).length = (boardOf db name stroke).length := by
    unfold validPool boardOf
    rw [length_filterMap_board (fun nm => best_of db nm stroke)
      (fun nm b => ⟨nm, b.1, b.2.1, b.2.2⟩)]
  rw [rank_api_eq]
  by_cases hopp : (opponentsOf db name stroke).isEmpty = true
  · rw [if_pos hopp]
    have hbnil : boardOf db name stroke = [] := by
      unfold boardOf allNamesOf
      rw [List.isEmpty_iff.mp hopp]
      simp [h]
    refine ⟨rfl, rfl, ?_, rfl, by simp, by simp⟩
    rw [hval, hbnil]
    rfl
  · rw [if_neg hopp]
    by_cases hboard : (boardOf db name stroke).isEmpty = true
    · rw [if_pos hboard]
      refine ⟨rfl, rfl, ?_, rfl, by simp, by simp⟩
      rw [hval, List.isEmpty_iff.mp hboard]
      rfl
    · rw [if_neg hboard]
      have hne_of_mem : ∀ p : ℕ × BRow, p ∈ rankedOf db name stroke → p.2.name ≠ name := by
        intro p hp
        have hp2 := (mem_withRanks 1 (sortedOf db name stroke) p hp).2.2
        unfold sortedOf at hp2
        have hp3 : p.2 ∈ boardOf db name stroke :=
          (mem_insSortBy (fun a b : BRow => pyLt a.pbSec b.pbSec)
            (boardOf db name stroke) p.2).mp hp2
        obtain ⟨_, hbo⟩ := mem_boardOf db name stroke p.2 hp3
        intro he
        rw [he, h] at hbo
        exact absurd hbo (by simp)
      have hfind : (rankedOf db name stroke).find? (fun p => p.2.name == name) = none := by
        apply List.find?_eq_none.mpr
        intro p hp
        simp only [beq_iff_eq]
        exact hne_of_mem p hp
      have hlen : (rankedOf db name stroke).length = (boardOf db name stroke).length := by
        unfold rankedOf
        rw [length_withRanks]
        unfold sortedOf
        rw [length_insSortBy]
      refine ⟨?_, ?_, ?_, ?_, ?_, ?_⟩
      · show ((rankedOf db name stroke).find? (fun p => p.2.name == name)).map
          (fun p => p.1) = none
        rw [hfind]
        rfl
      · show (match (((rankedOf db name stroke).find? (fun p => p.2.name == name)).map
            (fun p => p.1) : Option ℕ) with
          | none => none
          | some k =>
            if k = 0 then none
            else some (100 * (((rankedOf db name stroke).length : ℚ) - (k : ℚ)) /
              ((rankedOf db name stroke).length : ℚ))) = none
        rw [hfind]
        rfl
      · show (rankedOf db name stroke).length = (validPool db name stroke).length
        rw [hval, hlen]
      · show ((rankedOf db name stroke).take 10).length =
          min 10 (rankedOf db name stroke).length
        rw [List.length_take]
      · intro p hp
        exact hne_of_mem p (List.take_subset 10 _ hp)
      · intro hden
        rcases hs : sortedOf db name stroke with _ | ⟨b, bs⟩
        · have h0 : (rankedOf db name stroke).length = 0 := by
            unfold rankedOf
            rw [hs]
            rfl
          exact absurd h0 hden
        · rfl

/-- C6 (witness): a pool where the target's only result is unparseable while
one opponent has a valid time: rank and percentile are null, the denominator
is 1 and the ranked opponent is still listed. -/
theorem rank_api_no_valid_target_time_witness :
    best_of dbNoTime "A" "50公尺蛙式" = none ∧
      (rank_api dbNoTime "A" "50公尺蛙式").rank = none ∧
      (rank_api dbNoTime "A" "50公尺蛙式").percentile = none ∧
      (rank_api dbNoTime "A" "50公尺蛙式").denominator =
        (validPool dbNoTime "A" "50公尺蛙式").length :=
  ⟨by decide, (rank_api_no_valid_target_time dbNoTime "A" "50公尺蛙式" (by decide)).1,
    (rank_api_no_valid_target_time dbNoTime "A" "50公尺蛙式" (by decide)).2.1,
    (rank_api_no_valid_target_time dbNoTime "A" "50公尺蛙式" (by decide)).2.2.1⟩

/-- C1 (amended): whenever `rank_api` reports a rank r, it satisfies
1 <= r <= denominator and the reported percentile is
`100 * (denominator - r) / denominator` — the formula exclusive of the
target's own rank, not the claimed `100 * (denominator - r + 1) /
denominator`. -/
theorem rank_api_percentile_of_rank (db : List Row) (name stroke : String) (r : ℕ)
    (h : (rank_api db name stroke).rank = some r) :
    1 ≤ r ∧ r ≤ (rank_api db name stroke).denominator ∧
      (rank_api db name stroke).percentile =
        some (100 * (((rank_api db name stroke).denominator : ℚ) - (r : ℚ)) /
          ((rank_api db name stroke).denominator : ℚ)) := by
  rw [rank_api_eq] at h ⊢
  by_cases hopp : (opponentsOf db name stroke).isEmpty = true
  · rw [if_pos hopp] at h
    exact absurd h (by simp)
  · rw [if_neg hopp] at h ⊢
    by_cases hboard : (boardOf db name stroke).isEmpty = true
    · rw [if_pos hboard] at h
      exact absurd h (by simp)
    · rw [if_neg hboard] at h ⊢
      have h' : ((rankedOf db name stroke).find? (fun p => p.2.name == name)).map
          (fun p => p.1) = some r := h
      have h'' := h'
      rcases hfind : (rankedOf db name stroke).find? (fun p => p.2.name == name) with _ | p
      · rw [hfind] at h'
        simp at h'
      · rw [hfind] at h'
        have hp1 : p.1 = r := by simpa using h'
        have hmem := List.mem_of_find?_eq_some hfind
        obtain ⟨hge, hlt, _⟩ := mem_withRanks 1 (sortedOf db name stroke) p hmem
        have hr1 : 1 ≤ r := hp1 ▸ hge
        have hrden : r ≤ (rankedOf db name stroke).length := by
          rw [← hp1]
          have hl : (rankedOf db name stroke).length = (sortedOf db name stroke).length := by
            unfold rankedOf
            rw [length_withRanks]
          omega
        refine ⟨hr1, hrden, ?_⟩
        show (match (((rankedOf db name stroke).find? (fun p => p.2.name == name)).map
            (fun p => p.1) : Option ℕ) with
          | none => none
          | some k =>
            if k = 0 then none
            else some (100 * (((rankedOf db name stroke).length : ℚ) - (k : ℚ)) /
              ((rankedOf db name stroke).length : ℚ))) =
          some (100 * (((rankedOf db name stroke).length : ℚ) - (r : ℚ)) /
            ((rankedOf db name stroke).length : ℚ))
        rw [h'']
        show (if r = 0 then none
          else some (100 * (((rankedOf db name stroke).length : ℚ) - (r : ℚ)) /
            ((rankedOf db name stroke).length : ℚ))) = _
        rw [if_neg (by omega)]

/-- C1 (witness): on the three-member scenario pool, A's rank is 2, the
denominator is 3 and the percentile is 100 * (3 - 2) / 3. -/
theorem rank_api_percentile_of_rank_witness :
    (rank_api dbEx "A" "50公尺蛙式").rank = some 2 ∧
      (1 ≤ 2 ∧ 2 ≤ (rank_api dbEx "A" "50公尺蛙式").denominator ∧
        (rank_api dbEx "A" "50公尺蛙式").percentile =
          some (100 * (((rank_api dbEx "A" "50公尺蛙式").denominator : ℚ) - (2 : ℚ)) /
            ((rank_api dbEx "A" "50公尺蛙式").denominator : ℚ))) :=
  ⟨by decide, rank_api_percentile_of_rank dbEx "A" "50公尺蛙式" 2 (by decide)⟩

theorem foldBest_accOk (l : List Row)
    (hfin : ∀ r ∈ l, finOrNoneB (parse_seconds r.result) = true)
    (acc : Option (PyFloat × String × String)) (E : List ℚ)
    (hacc : accOk acc E) :
    accOk (l.foldl stepBest acc) (E ++ l.filterMap eligRow) := by
  induction l generalizing acc E with
  | nil => simpa using hacc
  | cons r rest ih =>
    have hr := hfin r (List.mem_cons_self r rest)
    have hrest : ∀ x ∈ rest, finOrNoneB (parse_seconds x.result) = true :=
      fun x hx => hfin x (List.mem_cons_of_mem r hx)
    rw [List.foldl_cons]
    by_cases hw : is_winter_short_course r.meet = true
    · have hstep : stepBest acc r = acc := by
        simp [stepBest, hw]
      have helig : eligRow r = none := by
        simp [eligRow, hw]
      rw [hstep]
      simp only [List.filterMap_cons, helig]
      exact ih hrest acc E hacc
    · cases hp : parse_seconds r.result with
      | none =>
        have hstep : stepBest acc r = acc := by
          simp [stepBest, hw, hp]
        have helig : eligRow r = none := by
          simp [eligRow, hw, hp]
        rw [hstep]
        simp only [List.filterMap_cons, helig]
        exact ih hrest acc E hacc
      | some sec =>
        have hfinr : finOrNoneB (some sec) = true := hp ▸ hr
        cases sec with
        | inf => simp [finOrNoneB] at hfinr
        | ninf => simp [finOrNoneB] at hfinr
        | nan => simp [finOrNoneB] at hfinr
        | fin q =>
          by_cases hq : q ≤ 0
          · have hle : pyLe (PyFloat.fin q) (PyFloat.fin 0) = true := by
              simp [pyLe, hq]
            have hstep : stepBest acc r = acc := by
              simp [stepBest, hw, hp, hle]
            have helig : eligRow r = none := by
              simp [eligRow, hw, hp, not_lt.mpr hq]
            rw [hstep]
            simp only [List.filterMap_cons, helig]
            exact ih hrest acc E hacc
          · push_neg at hq
            have hle : pyLe (PyFloat.fin q) (PyFloat.fin 0) = false := by
              simp [pyLe, not_le.mpr hq]
            have helig : eligRow r = some q := by
              simp [eligRow, hw, hp, hq]
            have haccp : accOk (stepBest acc r) (E ++ [q]) := by
              cases hacc_eq : acc with
              | none =>
                have hE : E = [] := hacc.1.mp hacc_eq
                subst hE
                have hstep : stepBest none r =
                    some (PyFloat.fin q, r.year, clean_meet_name (some r.meet)) := by
                  simp [stepBest, hw, hp, hle]
                rw [hstep]
                refine ⟨by simp, ?_⟩
                intro v y' m' hsome
                simp only [Option.some.injEq, Prod.mk.injEq] at hsome
                obtain ⟨hv, _, _⟩ := hsome
                subst hv
                refine ⟨q, rfl, hq, by simp, ?_⟩
                intro q' hq'
                rw [List.nil_append, List.mem_singleton] at hq'
                exact le_of_eq hq'.symm
              | some b =>
                rw [hacc_eq] at hacc
                obtain ⟨qb, hvb, hqb_pos, hqb_mem, hqb_min⟩ :=
                  hacc.2 b.1 b.2.1 b.2.2 rfl
                by_cases hlt : q < qb
                · have hstep : stepBest (some b) r =
                      some (PyFloat.fin q, r.year, clean_meet_name (some r.meet)) := by
                    simp [stepBest, hw, hp, hle, hvb, pyLt, hlt]
                  rw [hstep]
                  refine ⟨by simp, ?_⟩
                  intro v y' m' hsome
                  simp only [Option.some.injEq, Prod.mk.injEq] at hsome
                  obtain ⟨hv, _, _⟩ := hsome
                  subst hv
                  refine ⟨q, rfl, hq, by simp, ?_⟩
                  intro q' hq'
                  rcases List.mem_append.mp hq' with hq'' | hq''
                  · exact le_of_lt (lt_of_lt_of_le hlt (hqb_min q' hq''))
                  · rw [List.mem_singleton] at hq''
                    exact le_of_eq hq''.symm
                · have hstep : stepBest (some b) r = some b := by
                    simp [stepBest, hw, hp, hle, hvb, pyLt, hlt]
                  rw [hstep]
                  refine ⟨by simp, ?_⟩
                  intro v y' m' hsome
                  simp only [Option.some.injEq] at hsome
                  refine ⟨qb, ?_, hqb_pos, List.mem_append_left _ hqb_mem, ?_⟩
                  · have hv : v = b.1 := by rw [hsome]
                    rw [hv, hvb]
                  · intro q' hq'
                    rcases List.mem_append.mp hq' with hq'' | hq''
                    · exact hqb_min q' hq''
                    · rw [List.mem_singleton] at hq''
                      rw [hq'']
                      exact le_of_not_lt hlt
            have hres := ih hrest (stepBest acc r) (E ++ [q]) haccp
            have hlist : (E ++ [q]) ++ rest.filterMap eligRow =
                E ++ q :: rest.filterMap eligRow := by
              simp
            rw [hlist] at hres
            simp only [List.filterMap_cons, helig]
            exact hres

/-- C3 (amended): when every parsed time in the database is finite or
unparseable (no inf/nan), `best_of` excludes winter short-course rows and
non-positive times and returns exactly the minimum eligible parsed time of
the remaining rows (none iff no row is eligible); with nan times present the
minimum characterisation can fail. -/
theorem best_of_min_valid_of_finite (db : List Row) (player stroke : String)
    (hfin : db.all (fun r => finOrNoneB (parse_seconds r.result)) = true) :
    (best_of db player stroke = none ↔ eligTimes db player stroke = []) ∧
      ∀ v y m, best_of db player stroke = some (v, y, m) →
        ∃ q, v = PyFloat.fin q ∧ 0 < q ∧ q ∈ eligTimes db player stroke ∧
          ∀ q' ∈ eligTimes db player stroke, q ≤ q' := by
  have hfin' : ∀ r ∈ rowsOf db player stroke,
      finOrNoneB (parse_seconds r.result) = true := by
    intro r hr
    unfold rowsOf at hr
    have hr2 := (mem_insSortBy (fun a b : Row => strLtL a.year.toList b.year.toList)
      (db.filter (fun r => r.name == player && ilikeMatch stroke r.item)) r).mp hr
    exact (List.all_eq_true.mp hfin) r (List.mem_of_mem_filter hr2)
  have hstart : accOk none [] := by
    refine ⟨by simp, ?_⟩
    intro v y m h
    simp at h
  have h := foldBest_accOk (rowsOf db player stroke) hfin' none [] hstart
  rw [List.nil_append] at h
  exact h

/-- C3 (witness for the amended theorem): in the end-to-end scenario pool the
winter short-course 32.10 is excluded and the reported best 31.50 is the
minimum eligible time. -/
theorem best_of_min_valid_of_finite_witness :
    dbWinter.all (fun r => finOrNoneB (parse_seconds r.result)) = true ∧
      best_of dbWinter "A" "50公尺蛙式" =
        some (PyFloat.fin (63 / 2), "20230601", "Y Open") ∧
      (∃ q, PyFloat.fin (63 / 2) = PyFloat.fin q ∧ 0 < q ∧
        q ∈ eligTimes dbWinter "A" "50公尺蛙式" ∧
        ∀ q' ∈ eligTimes dbWinter "A" "50公尺蛙式", q ≤ q') :=
  ⟨by decide, by decide,
    (best_of_min_valid_of_finite dbWinter "A" "50公尺蛙式" (by decide)).2
      (PyFloat.fin (63 / 2)) "20230601" "Y Open" (by decide)⟩

theorem isDigit_false_of_isPySpace (c : Char) (h : isPySpace c = true) :
    c.isDigit = false := by
  simp only [isPySpace, Bool.or_eq_true, decide_eq_true_eq] at h
  rcases h with ((((h | h) | h) | h) | h) | h <;> subst h <;> decide

theorem dropWhile_append_all (p : Char → Bool) (sp t : List Char)
    (h : ∀ c ∈ sp, p c = true) : (sp ++ t).dropWhile p = t.dropWhile p := by
  induction sp with
  | nil => rfl
  | cons a as ih =>
    rw [List.cons_append, List.dropWhile_cons, if_pos (h a (List.mem_cons_self a as))]
    exact ih (fun c hc => h c (List.mem_cons_of_mem a hc))

theorem isPrefixOf_exists (l t : List Char) (h : l.isPrefixOf t = true) :
    ∃ u, t = l ++ u := by
  induction l generalizing t with
  | nil => exact ⟨t, rfl⟩
  | cons a as ih =>
    cases t with
    | nil => simp [List.isPrefixOf] at h
    | cons b bs =>
      simp only [List.isPrefixOf, Bool.and_eq_true, beq_iff_eq] at h
      obtain ⟨rfl, h2⟩ := h
      obtain ⟨u, hu⟩ := ih bs h2
      exact ⟨u, by rw [List.cons_append, ← hu]⟩

theorem isPrefixOf_append_self (l u : List Char) : l.isPrefixOf (l ++ u) = true := by
  induction l with
  | nil => simp [List.isPrefixOf]
  | cons a as ih => simp [List.isPrefixOf, ih]

theorem findDist_cons (c : Char) (rest : List Char) :
    findDist (c :: rest) =
      if c.isDigit then
        if meterTok.isPrefixOf (((c :: rest).dropWhile Char.isDigit).dropWhile isPySpace)
        then some ((c :: rest).takeWhile Char.isDigit)
        else findDist rest
      else findDist rest := rfl

theorem distMatch_cons_of (c : Char) (rest : List Char) (h : distMatch rest) :
    distMatch (c :: rest) := by
  obtain ⟨pre, ds, sp, post, heq, hds, hdig, hsp⟩ := h
  exact ⟨c :: pre, ds, sp, post, by rw [heq]; simp, hds, hdig, hsp⟩

theorem findDist_isSome_distMatch (l : List Char) :
    (findDist l).isSome = true → distMatch l := by
  induction l with
  | nil => intro h; simp [findDist] at h
  | cons c rest ih =>
    intro h
    rw [findDist_cons] at h
    by_cases hcd : c.isDigit = true
    · rw [if_pos hcd] at h
      by_cases hpref : meterTok.isPrefixOf
          (((c :: rest).dropWhile Char.isDigit).dropWhile isPySpace) = true
      · obtain ⟨post, hpost⟩ :=
          isPrefixOf_exists meterTok (((c :: rest).dropWhile Char.isDigit).dropWhile isPySpace)
            hpref
        refine ⟨[], (c :: rest).takeWhile Char.isDigit,
          ((c :: rest).dropWhile Char.isDigit).takeWhile isPySpace, post, ?_, ?_, ?_, ?_⟩
        · rw [List.nil_append]
          have h2 : ((c :: rest).dropWhile Char.isDigit).takeWhile isPySpace ++
              meterTok ++ post = (c :: rest).dropWhile Char.isDigit := by
            rw [List.append_assoc, ← hpost]
            exact List.takeWhile_append_dropWhile isPySpace ((c :: rest).dropWhile Char.isDigit)
          calc c :: rest
              = (c :: rest).takeWhile Char.isDigit ++ (c :: rest).dropWhile Char.isDigit :=
                (List.takeWhile_append_dropWhile Char.isDigit (c :: rest)).symm
            _ = (c :: rest).takeWhile Char.isDigit ++
                (((c :: rest).dropWhile Char.isDigit).takeWhile isPySpace ++
                  meterTok ++ post) := by rw [h2]
            _ = (c :: rest).takeWhile Char.isDigit ++
                ((c :: rest).dropWhile Char.isDigit).takeWhile isPySpace ++
                  meterTok ++ post := by simp [List.append_assoc]
        · intro hnil
          rw [List.takeWhile_cons_of_pos hcd] at hnil
          exact List.cons_ne_nil _ _ hnil
        · exact fun x hx => List.mem_takeWhile_imp hx
        · exact fun x hx => List.mem_takeWhile_imp hx
      · rw [if_neg hpref] at h
        exact distMatch_cons_of c rest (ih h)
    · rw [if_neg hcd] at h
      exact distMatch_cons_of c rest (ih h)

theorem distMatch_findDist (l : List Char) :
    distMatch l → (findDist l).isSome = true := by
  induction l with
  | nil =>
    intro h
    obtain ⟨pre, ds, sp, post, heq, hds, _, _⟩ := h
    have hlen := congrArg List.length heq
    simp only [List.length_nil, List.length_append] at hlen
    have hds' : ds.length ≠ 0 := fun hz => hds (List.length_eq_zero.mp hz)
    omega
  | cons c rest ih =>
    intro h
    have hm : meterTok = ['公', '尺'] := by decide
    have key : (c.isDigit = true ∧
        meterTok.isPrefixOf (((c :: rest).dropWhile Char.isDigit).dropWhile isPySpace) = true) ∨
        distMatch rest := by
      obtain ⟨pre, ds, sp, post, heq, hds, hdig, hsp⟩ := h
      cases pre with
      | cons p0 pre' =>
        right
        rw [List.cons_append] at heq
        injection heq with h1 h2
        exact ⟨pre', ds, sp, post, h2, hds, hdig, hsp⟩
      | nil =>
        rw [List.nil_append] at heq
        cases ds with
        | nil => exact absurd rfl hds
        | cons d0 ds' =>
          rw [List.cons_append] at heq
          injection heq with h1 h2
          have hcd : c.isDigit = true := by
            rw [h1]
            exact hdig d0 (List.mem_cons_self d0 ds')
          cases ds' with
          | cons e es =>
            right
            refine ⟨[], e :: es, sp, post, ?_, List.cons_ne_nil e es,
              fun x hx => hdig x (List.mem_cons_of_mem d0 hx), hsp⟩
            rw [List.nil_append]
            exact h2
          | nil =>
            left
            refine ⟨hcd, ?_⟩
            have h2' : rest = sp ++ (meterTok ++ post) := by simpa using h2
            clear h2
            have hdw : (c :: rest).dropWhile Char.isDigit = rest.dropWhile Char.isDigit := by
              rw [List.dropWhile_cons, if_pos hcd]
            have hrestdw : rest.dropWhile Char.isDigit = rest := by
              apply dropWhile_eq_self_of_head
              intro x hx
              rw [h2'] at hx
              cases sp with
              | nil =>
                rw [List.nil_append, hm] at hx
                simp only [List.cons_append, List.head?_cons] at hx
                injection hx with hx2
                subst hx2
                decide
              | cons s0 sp' =>
                simp only [List.cons_append, List.head?_cons] at hx
                injection hx with hx2
                subst hx2
                exact isDigit_false_of_isPySpace s0 (hsp s0 (List.mem_cons_self s0 sp'))
            rw [hdw, hrestdw, h2',
              dropWhile_append_all isPySpace sp (meterTok ++ post) hsp]
            have hnotsp : (meterTok ++ post).dropWhile isPySpace = meterTok ++ post := by
              apply dropWhile_eq_self_of_head
              intro x hx
              rw [hm] at hx
              simp only [List.cons_append, List.head?_cons] at hx
              injection hx with hx2
              subst hx2
              decide
            rw [hnotsp]
            exact isPrefixOf_append_self meterTok post
    rcases key with ⟨hcd, hpref⟩ | hrest
    · rw [findDist_cons, if_pos hcd, if_pos hpref]
      rfl
    · by_cases hcd : c.isDigit = true
      · by_cases hpref : meterTok.isPrefixOf
            (((c :: rest).dropWhile Char.isDigit).dropWhile isPySpace) = true
        · rw [findDist_cons, if_pos hcd, if_pos hpref]
          rfl
        · rw [findDist_cons, if_pos hcd, if_neg hpref]
          exact ih hrest
      · rw [findDist_cons, if_neg hcd]
        exact ih hrest

theorem strokeLoop_spec (s : List Char) (fs : List (List Char)) :
    (strokeLoop s fs = [] ∧ ∀ f ∈ fs, containsL f s = false) ∨
      (∃ i < fs.length, strokeLoop s fs = fs.getD i [] ∧
        containsL (fs.getD i []) s = true ∧
        ∀ j < i, containsL (fs.getD j []) s = false) := by
  induction fs with
  | nil => exact Or.inl ⟨rfl, by simp⟩
  | cons f fs' ih =>
    cases hc : containsL f s with
    | true =>
      right
      refine ⟨0, by simp, ?_, ?_, ?_⟩
      · simp [strokeLoop, hc]
      · simp only [List.getD_cons_zero]
        exact hc
      · intro j hj
        exact absurd hj (Nat.not_lt_zero j)
    | false =>
      have hstep : strokeLoop s (f :: fs') = strokeLoop s fs' := by
        simp [strokeLoop, hc]
      rcases ih with ⟨h1, h2⟩ | ⟨i, hi, he, hcont, hmin⟩
      · left
        refine ⟨by rw [hstep, h1], ?_⟩
        intro g hg
        rcases List.mem_cons.mp hg with rfl | hg2
        · exact hc
        · exact h2 g hg2
      · right
        refine ⟨i + 1, by simp only [List.length_cons]; omega, ?_, ?_, ?_⟩
        · rw [hstep, List.getD_cons_succ]
          exact he
        · rw [List.getD_cons_succ]
          exact hcont
        · intro j hj
          cases j with
          | zero =>
            simp only [List.getD_cons_zero]
            exact hc
          | succ j' =>
            rw [List.getD_cons_succ]
            exact hmin j' (by omega)

/-- C8 (amended): the Event Classifier's stroke vocabulary is the
four-element list 蛙式, 仰式, 自由式, 蝶式 in that order — there is no medley
entry — and `stroke_family` returns the first vocabulary entry contained in
the label, or the unknown value "" when none is contained; the distance is
extracted by the regex `(\d+)\s*公尺`, and `distance_from_item` succeeds
exactly when the label decomposes around a nonempty digit run followed,
modulo whitespace, by 公尺, returning `none` otherwise. Both functions are
total, so absence of a match never raises. -/
theorem event_classifier_spec (s : String) :
    ((stroke_family s = "" ∧ ∀ f ∈ famList, containsL f s.toList = false) ∨
      (∃ i < famList.length, stroke_family s = ⟨famList.getD i []⟩ ∧
        containsL (famList.getD i []) s.toList = true ∧
        ∀ j < i, containsL (famList.getD j []) s.toList = false)) ∧
      ((distance_from_item s).isSome = true ↔ distMatch s.toList) := by
  constructor
  · rcases strokeLoop_spec s.toList famList with ⟨h1, h2⟩ | ⟨i, hi, he, hcont, hmin⟩
    · left
      refine ⟨?_, h2⟩
      unfold stroke_family
      rw [h1]
    · right
      refine ⟨i, hi, ?_, hcont, hmin⟩
      unfold stroke_family
      rw [he]
  · constructor
    · intro h
      apply findDist_isSome_distMatch
      cases hfd : findDist s.toList with
      | none =>
        rw [distance_from_item, hfd] at h
        simp at h
      | some r => rfl
    · intro h
      have h2 := distMatch_findDist s.toList h
      rw [distance_from_item]
      cases hfd : findDist s.toList with
      | none =>
        rw [hfd] at h2
        simp at h2
      | some r => rfl
